import Mathlib

/-!
Verification of the JSON ingestion / pretty-printing layer of WhiteDB
(`Db/dbjson.c`) against its natural-language specification.

The development shallowly embeds `dbjson.c`.  The record store
(`dbdata.c` / `dbschema.c`) and the JSON tokenizer (`json/JSON_parser.c`)
are external collaborators that are not part of the analysed sources, so
they are modelled from the specification, in the definitions explicitly
marked `Modelled from the spec`.  Everything else is a direct translation
of the C functions, keeping their names.

Machine integers (`gint` payloads, JSON integers) are modelled as
unbounded `Int`: the core only passes encoded scalar handles through, so
no overflow behaviour of the store is observable here.  C strings are
modelled as `List Char`.
-/

set_option maxRecDepth 100000

namespace WhiteDB

/-- stack_entry_t from dbjson.c:69: the two container kinds. -/
inductive stack_entry_t where
  | ARRAY
  | OBJECT
deriving DecidableEq, Repr

/-- Record kinds the store can materialize for the JSON schema
(dbschema.c): arrays, objects and key-value pairs. -/
inductive rkind where
  | karr
  | kobj
  | kpair
deriving DecidableEq, Repr

/-- Modelled from the spec: the store's opaque encoded-value handle
(`gint`).  Scalars carry their value; `erec` carries the whole record a
record handle refers to (records are mutated only via `wg_set_field`
inside `pop`, before the handle is shared, so value semantics coincide
with the C pointer semantics for every behaviour the spec mentions).
`unset` models a freshly created, not-yet-filled record field. -/
inductive Enc where
  | eint (n : Int)
  | edbl (q : Rat)
  | estr (s : List Char)
  | unset
  | erec (kind : rkind) (istoplevel : Bool) (isparam : Bool) (fields : List Enc)

mutual

/-- boolean equality on encoded values (structural). -/
def Enc.beq : Enc → Enc → Bool
  | .eint a, .eint b => decide (a = b)
  | .edbl a, .edbl b => decide (a = b)
  | .estr a, .estr b => decide (a = b)
  | .unset, .unset => true
  | .erec k1 t1 p1 fs1, .erec k2 t2 p2 fs2 =>
    decide (k1 = k2) && decide (t1 = t2) && decide (p1 = p2) && Enc.beqList fs1 fs2
  | _, _ => false

/-- boolean equality on lists of encoded values. -/
def Enc.beqList : List Enc → List Enc → Bool
  | [], [] => true
  | a :: as, b :: bs => Enc.beq a b && Enc.beqList as bs
  | _, _ => false

end

mutual

theorem Enc.beq_iff : ∀ a b : Enc, Enc.beq a b = true ↔ a = b
  | .eint _, .eint _ => by simp [Enc.beq]
  | .edbl _, .edbl _ => by simp [Enc.beq]
  | .estr _, .estr _ => by simp [Enc.beq]
  | .unset, .unset => by simp [Enc.beq]
  | .erec k1 t1 p1 fs1, .erec k2 t2 p2 fs2 => by
    simp [Enc.beq, Enc.beqList_iff fs1 fs2, and_assoc]
  | .eint _, .edbl _ | .eint _, .estr _ | .eint _, .unset | .eint _, .erec _ _ _ _
  | .edbl _, .eint _ | .edbl _, .estr _ | .edbl _, .unset | .edbl _, .erec _ _ _ _
  | .estr _, .eint _ | .estr _, .edbl _ | .estr _, .unset | .estr _, .erec _ _ _ _
  | .unset, .eint _ | .unset, .edbl _ | .unset, .estr _ | .unset, .erec _ _ _ _
  | .erec _ _ _ _, .eint _ | .erec _ _ _ _, .edbl _ | .erec _ _ _ _, .estr _
  | .erec _ _ _ _, .unset => by simp [Enc.beq]

theorem Enc.beqList_iff : ∀ as bs : List Enc, Enc.beqList as bs = true ↔ as = bs
  | [], [] => by simp [Enc.beqList]
  | a :: as, b :: bs => by
    simp [Enc.beqList, Enc.beq_iff a b, Enc.beqList_iff as bs]
  | [], _ :: _ => by simp [Enc.beqList]
  | _ :: _, [] => by simp [Enc.beqList]

end

instance : DecidableEq Enc := fun a b =>
  decidable_of_iff (Enc.beq a b = true) (Enc.beq_iff a b)

/-- Encoded-type tags returned by wg_get_encoded_type (dbdata.h). -/
inductive WgType where
  | WG_NULLTYPE
  | WG_RECORDTYPE
  | WG_INTTYPE
  | WG_DOUBLETYPE
  | WG_STRTYPE
deriving DecidableEq, Repr

/-- Modelled from the spec: a failure oracle for the external store.  The
store may refuse any allocation / encoding / field write ("capacity
exhaustion"); `o c = true` makes the store's `c`-th call fail.  The
driver state threads a call counter. -/
def Oracle : Type := Nat → Bool

/-- the oracle under which every store call succeeds. -/
def nofail : Oracle := fun _ => false

/-- Modelled from the spec: wg_encode_int (dbdata.c); returns WG_ILLEGAL
(here `none`) on failure. -/
def wg_encode_int (o : Oracle) (c : Nat) (n : Int) : Option Enc × Nat :=
  (if o c then none else some (.eint n), c + 1)

/-- Modelled from the spec: wg_encode_double (dbdata.c). -/
def wg_encode_double (o : Oracle) (c : Nat) (q : Rat) : Option Enc × Nat :=
  (if o c then none else some (.edbl q), c + 1)

/-- Modelled from the spec: wg_encode_str (dbdata.c). -/
def wg_encode_str (o : Oracle) (c : Nat) (s : List Char) : Option Enc × Nat :=
  (if o c then none else some (.estr s), c + 1)

/-- Modelled from the spec: wg_create_array (dbschema.c): a record of
`size` fields, initially unset, carrying the toplevel/param marks. -/
def wg_create_array (o : Oracle) (c : Nat) (size : Nat) (istoplevel isparam : Bool) :
    Option Enc × Nat :=
  (if o c then none else some (.erec .karr istoplevel isparam (List.replicate size .unset)), c + 1)

/-- Modelled from the spec: wg_create_object (dbschema.c). -/
def wg_create_object (o : Oracle) (c : Nat) (size : Nat) (istoplevel isparam : Bool) :
    Option Enc × Nat :=
  (if o c then none else some (.erec .kobj istoplevel isparam (List.replicate size .unset)), c + 1)

/-- Modelled from the spec: wg_create_kvpair (dbschema.c): a two-field
record holding one object entry (key at WG_SCHEMA_KEY_OFFSET = field 0,
value at WG_SCHEMA_VALUE_OFFSET = field 1); never toplevel. -/
def wg_create_kvpair (o : Oracle) (c : Nat) (key val : Enc) (isparam : Bool) :
    Option Enc × Nat :=
  (if o c then none else some (.erec .kpair false isparam [key, val]), c + 1)

/-- Modelled from the spec: wg_set_field (dbdata.c): writes field `i`;
fails per the oracle, or when `i` is out of range / the handle is not a
record. -/
def wg_set_field (o : Oracle) (c : Nat) (rec : Enc) (i : Nat) (v : Enc) :
    Option Enc × Nat :=
  if o c then (none, c + 1)
  else
    match rec with
    | .erec k t p fs => (if i < fs.length then some (.erec k t p (fs.set i v)) else none, c + 1)
    | _ => (none, c + 1)

/-- Modelled from the spec: wg_encode_record (dbdata.c): tags a record
pointer as an encoded value; a pure operation (the C code never checks it
for failure). -/
def wg_encode_record (rec : Enc) : Enc := rec

/-- Modelled from the spec: wg_decode_record (dbdata.c). -/
def wg_decode_record (enc : Enc) : Enc := enc

/-- Modelled from the spec: wg_decode_str (dbdata.c). -/
def wg_decode_str : Enc → List Char
  | .estr s => s
  | _ => []

/-- Modelled from the spec: wg_get_field (dbdata.c). -/
def wg_get_field (rec : Enc) (i : Nat) : Enc :=
  match rec with
  | .erec _ _ _ fs => fs.getD i .unset
  | _ => .unset

/-- Modelled from the spec: wg_get_record_len (dbdata.c). -/
def wg_get_record_len : Enc → Nat
  | .erec _ _ _ fs => fs.length
  | _ => 0

/-- Modelled from the spec: wg_get_encoded_type (dbdata.c). -/
def wg_get_encoded_type : Enc → WgType
  | .eint _ => .WG_INTTYPE
  | .edbl _ => .WG_DOUBLETYPE
  | .estr _ => .WG_STRTYPE
  | .erec _ _ _ _ => .WG_RECORDTYPE
  | .unset => .WG_NULLTYPE

/-- Modelled from the spec: is_schema_object (dbschema.c): shape
predicate answering whether a record plays the object role. -/
def is_schema_object : Enc → Bool
  | .erec .kobj _ _ _ => true
  | _ => false

/-- Modelled from the spec: is_schema_array (dbschema.c). -/
def is_schema_array : Enc → Bool
  | .erec .karr _ _ _ => true
  | _ => false

/-- Modelled from the spec: is_schema_document (dbschema.c): true exactly
for records created with the toplevel mark; rejects bare sub-fragments. -/
def is_schema_document : Enc → Bool
  | .erec _ istoplevel _ _ => istoplevel
  | _ => false

/-- digit characters used by the decimal printing model. -/
def digitChar (d : Nat) : Char :=
  (['0', '1', '2', '3', '4', '5', '6', '7', '8', '9']).getD d '0'

/-- fuel-driven decimal digit emission, most significant digit first
(the fuel makes this structurally recursive; `m` itself is always enough
fuel for a positive `m`). -/
def natCharsF : Nat → Nat → List Char
  | 0, _ => []
  | fuel + 1, n => if n = 0 then [] else natCharsF fuel (n / 10) ++ [digitChar (n % 10)]

/-- decimal representation of a natural number, most significant digit
first. -/
def natChars (m : Nat) : List Char :=
  if m = 0 then ['0'] else natCharsF m m

/-- decimal representation of an integer. -/
def intChars (n : Int) : List Char :=
  if n < 0 then '-' :: natChars n.natAbs else natChars n.natAbs

/-- Modelled from the spec: wg_snprint_value (dbutil.c), the store's
scalar-to-text conversion, as called with a 79-character buffer.
Integers print in decimal; the store's text format for doubles is not
specified by the spec and no claim depends on it. -/
def wg_snprint_value : Enc → List Char
  | .eint n => (intChars n).take 79
  | .edbl q => (intChars q.num ++ '/' :: natChars q.den).take 79
  | .estr s => s.take 79
  | _ => []

/-- MAX_DEPTH from dbjson.c:66 (the build without USE_BACKLINKING). -/
def MAX_DEPTH : Nat := 99

/-- stack_entry from dbjson.c:78: one container under construction.  The
C head/tail singly linked element list appears as `elems` in insertion
order; the C `size` field always equals `elems.length`.  `last_key` is
the `char last_key[80]` buffer (its effective string). -/
structure stack_entry where
  type : stack_entry_t
  elems : List Enc
  last_key : List Char
deriving DecidableEq

/-- parser_context from dbjson.c:86.  The fixed `stack[MAX_DEPTH]` array
together with `stack_ptr` appears as a list whose head is the entry at
`stack_ptr` (so `stack_ptr = stack.length - 1`, and the empty list is
`stack_ptr = -1`).  The `db` handle appears as the oracle-call counter
`dbctr`; the C `state` field is never used. -/
structure parser_context where
  stack : List stack_entry
  isparam : Bool
  document : Option Enc
  dbctr : Nat
deriving DecidableEq

/-- push from dbjson.c:281: refuse when the incremented stack index would
reach MAX_DEPTH, else open a fresh entry.  (C increments `stack_ptr`
before the bound check even when refusing; every caller aborts the parse on
refusal, so leaving the stack unchanged is observationally equivalent.
`last_key` is uninitialized in C until add_key runs; it is reset here.) -/
def push (ctx : parser_context) (type : stack_entry_t) : Bool × parser_context :=
  if MAX_DEPTH ≤ ctx.stack.length then (false, ctx)
  else (true, { ctx with stack := ⟨type, [], []⟩ :: ctx.stack })

/-- add_elem from dbjson.c:360: append one encoded value to the current
top entry's element list (the C paranoia bound check and malloc failure
are unreachable / not modelled: the list stack never exceeds MAX_DEPTH). -/
def add_elem (ctx : parser_context) (enc : Enc) : Bool × parser_context :=
  match ctx.stack with
  | [] => (false, ctx)
  | e :: rest =>
    (true, { ctx with stack := { e with elems := e.elems ++ [enc] } :: rest })

/-- add_key from dbjson.c:388: `strncpy(e->last_key, key, 80)` followed by
`e->last_key[79] = 0` stores exactly the first 79 characters. -/
def add_key (ctx : parser_context) (key : List Char) : Bool × parser_context :=
  match ctx.stack with
  | [] => (false, ctx)
  | e :: rest =>
    (true, { ctx with stack := { e with last_key := key.take 79 } :: rest })

/-- add_literal from dbjson.c:406: in an array append the value itself;
in an object wrap it with the pending key into a kvpair record first. -/
def add_literal (o : Oracle) (ctx : parser_context) (val : Enc) : Bool × parser_context :=
  match ctx.stack with
  | [] => (false, ctx)
  | e :: _ =>
    match e.type with
    | .ARRAY => add_elem ctx val
    | .OBJECT =>
      match wg_encode_str o ctx.dbctr e.last_key with
      | (none, c1) => (false, { ctx with dbctr := c1 })
      | (some key, c1) =>
        match wg_create_kvpair o c1 key val ctx.isparam with
        | (none, c2) => (false, { ctx with dbctr := c2 })
        | (some rec, c2) => add_elem { ctx with dbctr := c2 } (wg_encode_record rec)

/-- the field-filling loop inside pop (dbjson.c:324): `wg_set_field` on
each queued element at increasing indices, stopping at the first failure
(`ret = 0`); returns the (possibly partially) filled record, the C `ret`
flag and the advanced store counter. -/
def pop_fill (o : Oracle) : Enc → Nat → List Enc → Nat → Enc × Bool × Nat
  | rec, c, [], _ => (rec, true, c)
  | rec, c, v :: rest, i =>
    match wg_set_field o c rec i v with
    | (some rec2, c2) => pop_fill o rec2 c2 rest (i + 1)
    | (none, c2) => (rec, false, c2)

/-- pop from dbjson.c:299: take the top entry, materialize it as an array
or object record, fill its fields, write the document slot when this was
the outermost entry (the C code writes `*(ctx->document)` whenever `rec`
is non-NULL, even when a field write failed), and otherwise hand the
encoded record to add_literal on the new top entry. -/
def pop (o : Oracle) (ctx : parser_context) : Bool × parser_context :=
  match ctx.stack with
  | [] => (false, ctx)
  | e :: rest =>
    let istoplevel := rest.isEmpty
    match
      (match e.type with
       | .ARRAY => wg_create_array o ctx.dbctr e.elems.length istoplevel ctx.isparam
       | .OBJECT => wg_create_object o ctx.dbctr e.elems.length istoplevel ctx.isparam) with
    | (none, c1) => (false, { ctx with stack := rest, dbctr := c1 })
    | (some rec0, c1) =>
      match pop_fill o rec0 c1 e.elems 0 with
      | (rec1, ret, c2) =>
        let ctx1 : parser_context :=
          { stack := rest, isparam := ctx.isparam,
            document := if istoplevel then some rec1 else ctx.document,
            dbctr := c2 }
        if ret then
          if istoplevel then (true, ctx1)
          else add_literal o ctx1 (wg_encode_record rec1)
        else (false, ctx1)

/-- tokenizer events: the JSON_T_* value types JSON_parser delivers to
the callback.  `tru`, `fls`, `nul` (and nothing else the tokenizer can
produce) land in the `default` branch of parse_json_cb's switch. -/
inductive Event where
  | arrBegin
  | arrEnd
  | objBegin
  | objEnd
  | key (s : List Char)
  | str (s : List Char)
  | int (n : Int)
  | flt (q : Rat)
  | tru
  | fls
  | nul
deriving DecidableEq

/-- parse_json_cb from dbjson.c:432: translate one tokenizer event into
one stack operation; `true` is the C `return 1`. -/
def parse_json_cb (o : Oracle) (ctx : parser_context) (ev : Event) : Bool × parser_context :=
  match ev with
  | .arrBegin => push ctx .ARRAY
  | .arrEnd => pop o ctx
  | .objBegin => push ctx .OBJECT
  | .objEnd => pop o ctx
  | .int n =>
    match wg_encode_int o ctx.dbctr n with
    | (none, c1) => (false, { ctx with dbctr := c1 })
    | (some v, c1) => add_literal o { ctx with dbctr := c1 } v
  | .flt q =>
    match wg_encode_double o ctx.dbctr q with
    | (none, c1) => (false, { ctx with dbctr := c1 })
    | (some v, c1) => add_literal o { ctx with dbctr := c1 } v
  | .key s => add_key ctx s
  | .str s =>
    match wg_encode_str o ctx.dbctr s with
    | (none, c1) => (false, { ctx with dbctr := c1 })
    | (some v, c1) => add_literal o { ctx with dbctr := c1 } v
  | .tru => (true, ctx)
  | .fls => (true, ctx)
  | .nul => (true, ctx)

/-- the event loop JSON_parser runs the callback under: deliver events in
order, aborting the parse as soon as the callback reports failure. -/
def runEvents (o : Oracle) (ctx : parser_context) : List Event → Bool × parser_context
  | [] => (true, ctx)
  | ev :: rest =>
    match parse_json_cb o ctx ev with
    | (true, ctx1) => runEvents o ctx1 rest
    | (false, ctx1) => (false, ctx1)

/-- JSON token kinds recognized by the tokenizer's lexical layer. -/
inductive Token where
  | lbrack
  | rbrack
  | lbrace
  | rbrace
  | comma
  | colon
  | num (n : Int)
  | str (s : List Char)
  | tru
  | fls
  | nul
deriving DecidableEq

/-- whitespace characters skipped between tokens. -/
def isWs (c : Char) : Bool := c = ' ' || c = '\n' || c = '\t' || c = '\r'

/-- decimal digit test on a character. -/
def isDigitC (c : Char) : Bool := 48 ≤ c.toNat && c.toNat ≤ 57

/-- value of a decimal digit character. -/
def charDigit (c : Char) : Nat := c.toNat - 48

/-- the string escapes the tokenizer model understands. -/
def unescapeC (e : Char) : Option Char :=
  if e = '"' then some '"'
  else if e = '\\' then some '\\'
  else if e = '/' then some '/'
  else if e = 'n' then some '\n'
  else if e = 't' then some '\t'
  else if e = 'r' then some '\r'
  else none

/-- Modelled from the spec: string-body scanning after the opening quote;
`esc` is set immediately after a backslash.  Returns the decoded body and
the input following the closing quote; raw control characters and unknown
escapes are rejected. -/
def scanStr : Bool → List Char → Option (List Char × List Char)
  | _, [] => none
  | true, e :: rest =>
    (match unescapeC e with
     | none => none
     | some d =>
       match scanStr false rest with
       | none => none
       | some (s, r) => some (d :: s, r))
  | false, c :: rest =>
    if c = '"' then some ([], rest)
    else if c = '\\' then scanStr true rest
    else if c.toNat < 32 then none
    else
      match scanStr false rest with
      | none => none
      | some (s, r) => some (c :: s, r)

theorem scanStr_length : ∀ (cs : List Char) (esc : Bool) (s r : List Char),
    scanStr esc cs = some (s, r) → r.length < cs.length := by
  intro cs
  induction cs with
  | nil => intro esc s r h; cases esc <;> simp [scanStr] at h
  | cons c rest ih =>
    intro esc s r h
    cases esc with
    | true =>
      simp only [scanStr] at h
      cases hu : unescapeC c with
      | none => rw [hu] at h; simp at h
      | some d =>
        rw [hu] at h
        cases hs : scanStr false rest with
        | none => rw [hs] at h; simp at h
        | some pr =>
          rw [hs] at h
          cases pr with
          | mk s2 r2 =>
            simp at h
            have := ih false s2 r2 hs
            simp [← h.2]
            omega
    | false =>
      simp only [scanStr] at h
      by_cases hq : c = '"'
      · simp [hq] at h
        simp [← h.2]
      · by_cases hb : c = '\\'
        · simp [hq, hb] at h
          have := ih true s r h
          simp
          omega
        · by_cases hctl : c.toNat < 32
          · simp [hq, hb, hctl] at h
          · simp [hq, hb, hctl] at h
            cases hs : scanStr false rest with
            | none => rw [hs] at h; simp at h
            | some pr =>
              rw [hs] at h
              cases pr with
              | mk s2 r2 =>
                simp at h
                have := ih false s2 r2 hs
                simp [← h.2]
                omega

/-- digit-run scanning: the longest digit run and the rest of the input. -/
def scanDigits : List Char → List Nat × List Char
  | [] => ([], [])
  | c :: rest =>
    if isDigitC c then
      match scanDigits rest with
      | (ds, r) => (charDigit c :: ds, r)
    else ([], c :: rest)

theorem scanDigits_length : ∀ cs : List Char, (scanDigits cs).2.length ≤ cs.length := by
  intro cs
  induction cs with
  | nil => simp [scanDigits]
  | cons c rest ih =>
    by_cases hd : isDigitC c
    · simp [scanDigits, hd]
      omega
    · simp [scanDigits, hd]

/-- numeric value of a digit run (most significant digit first). -/
def digitsVal (ds : List Nat) : Nat := ds.foldl (fun a d => a * 10 + d) 0

/-- cons a token onto a scan result. -/
def tokCons (t : Token) (p : List Token × Bool) : List Token × Bool := (t :: p.1, p.2)

/-- Modelled from the spec: the byte-level scanner of the external JSON
tokenizer (json/JSON_parser.c, not in the analysed sources): splits the
input into JSON tokens, returning the tokens recognized before any
lexical failure and whether the whole input scanned cleanly.  The fuel
only makes the recursion structural: every step consumes at least one
character, so any fuel beyond the input length gives the same result
(scanF_congr below).  Comment skipping (`allow_comments`) and float
literals are omitted; no claim depends on them. -/
def scanF : Nat → List Char → List Token × Bool
  | 0, _ => ([], false)
  | _ + 1, [] => ([], true)
  | fuel + 1, c :: rest =>
    if isWs c then scanF fuel rest
    else if c = '[' then tokCons .lbrack (scanF fuel rest)
    else if c = ']' then tokCons .rbrack (scanF fuel rest)
    else if c = '\x7b' then tokCons .lbrace (scanF fuel rest)
    else if c = '\x7d' then tokCons .rbrace (scanF fuel rest)
    else if c = ',' then tokCons .comma (scanF fuel rest)
    else if c = ':' then tokCons .colon (scanF fuel rest)
    else if c = '"' then
      match scanStr false rest with
      | none => ([], false)
      | some (s, r) => tokCons (.str s) (scanF fuel r)
    else if c = '-' then
      match rest with
      | [] => ([], false)
      | d :: rest2 =>
        if isDigitC d then
          let p := scanDigits rest2
          tokCons (.num (-(digitsVal (charDigit d :: p.1) : Int))) (scanF fuel p.2)
        else ([], false)
    else if isDigitC c then
      let p := scanDigits rest
      tokCons (.num ((digitsVal (charDigit c :: p.1) : Nat) : Int)) (scanF fuel p.2)
    else if c = 't' then
      (if rest.take 3 = ['r', 'u', 'e'] then tokCons .tru (scanF fuel (rest.drop 3))
       else ([], false))
    else if c = 'f' then
      (if rest.take 4 = ['a', 'l', 's', 'e'] then tokCons .fls (scanF fuel (rest.drop 4))
       else ([], false))
    else if c = 'n' then
      (if rest.take 3 = ['u', 'l', 'l'] then tokCons .nul (scanF fuel (rest.drop 3))
       else ([], false))
    else ([], false)

/-- the scanner at its canonical fuel. -/
def scan (cs : List Char) : List Token × Bool := scanF (cs.length + 1) cs

theorem scanF_congr : ∀ (f1 : Nat) (cs : List Char) (f2 : Nat),
    cs.length < f1 → cs.length < f2 → scanF f1 cs = scanF f2 cs := by
  intro f1
  induction f1 with
  | zero => intro cs f2 h1 h2; omega
  | succ n ih =>
    intro cs f2 h1 h2
    match f2, cs with
    | 0, cs => omega
    | m + 1, [] => rfl
    | m + 1, c :: rest =>
      simp only [List.length_cons] at h1 h2
      have hrec : ∀ r : List Char, r.length ≤ rest.length → scanF n r = scanF m r := by
        intro r hl
        exact ih r m (by omega) (by omega)
      simp only [scanF]
      by_cases hws : isWs c = true
      · rw [if_pos hws, if_pos hws]
        exact hrec rest (le_refl _)
      rw [if_neg hws, if_neg hws]
      by_cases hb1 : c = '['
      · rw [if_pos hb1, if_pos hb1]
        exact congrArg (tokCons _) (hrec rest (le_refl _))
      rw [if_neg hb1, if_neg hb1]
      by_cases hb2 : c = ']'
      · rw [if_pos hb2, if_pos hb2]
        exact congrArg (tokCons _) (hrec rest (le_refl _))
      rw [if_neg hb2, if_neg hb2]
      by_cases hb3 : c = '\x7b'
      · rw [if_pos hb3, if_pos hb3]
        exact congrArg (tokCons _) (hrec rest (le_refl _))
      rw [if_neg hb3, if_neg hb3]
      by_cases hb4 : c = '\x7d'
      · rw [if_pos hb4, if_pos hb4]
        exact congrArg (tokCons _) (hrec rest (le_refl _))
      rw [if_neg hb4, if_neg hb4]
      by_cases hb5 : c = ','
      · rw [if_pos hb5, if_pos hb5]
        exact congrArg (tokCons _) (hrec rest (le_refl _))
      rw [if_neg hb5, if_neg hb5]
      by_cases hb6 : c = ':'
      · rw [if_pos hb6, if_pos hb6]
        exact congrArg (tokCons _) (hrec rest (le_refl _))
      rw [if_neg hb6, if_neg hb6]
      by_cases hb7 : c = '"'
      · rw [if_pos hb7, if_pos hb7]
        cases hscan : scanStr false rest with
        | none => rfl
        | some pr =>
          cases pr with
          | mk s r =>
            exact congrArg (tokCons _)
              (hrec r (le_of_lt (scanStr_length rest false s r hscan)))
      rw [if_neg hb7, if_neg hb7]
      by_cases hb8 : c = '-'
      · rw [if_pos hb8, if_pos hb8]
        cases rest with
        | nil => rfl
        | cons d rest2 =>
          dsimp only
          by_cases hd : isDigitC d = true
          · rw [if_pos hd, if_pos hd]
            refine congrArg (tokCons _) (hrec (scanDigits rest2).2 ?_)
            have := scanDigits_length rest2
            simp only [List.length_cons]
            omega
          · rw [if_neg hd, if_neg hd]
      rw [if_neg hb8, if_neg hb8]
      by_cases hb9 : isDigitC c = true
      · rw [if_pos hb9, if_pos hb9]
        exact congrArg (tokCons _) (hrec (scanDigits rest).2 (scanDigits_length rest))
      rw [if_neg hb9, if_neg hb9]
      by_cases hb10 : c = 't'
      · rw [if_pos hb10, if_pos hb10]
        by_cases ht : rest.take 3 = ['r', 'u', 'e']
        · rw [if_pos ht, if_pos ht]
          refine congrArg (tokCons _) (hrec (rest.drop 3) ?_)
          simp
        · rw [if_neg ht, if_neg ht]
      rw [if_neg hb10, if_neg hb10]
      by_cases hb11 : c = 'f'
      · rw [if_pos hb11, if_pos hb11]
        by_cases ht : rest.take 4 = ['a', 'l', 's', 'e']
        · rw [if_pos ht, if_pos ht]
          refine congrArg (tokCons _) (hrec (rest.drop 4) ?_)
          simp
        · rw [if_neg ht, if_neg ht]
      rw [if_neg hb11, if_neg hb11]
      by_cases hb12 : c = 'n'
      · rw [if_pos hb12, if_pos hb12]
        by_cases ht : rest.take 3 = ['u', 'l', 'l']
        · rw [if_pos ht, if_pos ht]
          refine congrArg (tokCons _) (hrec (rest.drop 3) ?_)
          simp
        · rw [if_neg ht, if_neg ht]
      rw [if_neg hb12, if_neg hb12]

/-- grammar states of the tokenizer's pushdown automaton (mirroring the
mode machine of JSON_parser.c). -/
inductive PS where
  | psStart
  | psDone
  | psArrFirst
  | psArrNext
  | psArrAfter
  | psKeyFirst
  | psKeyNext
  | psColon
  | psObjVal
  | psObjAfter
deriving DecidableEq, Repr

/-- states in which a value may start. -/
def isValPS : PS → Bool
  | .psStart => true
  | .psArrFirst => true
  | .psArrNext => true
  | .psObjVal => true
  | _ => false

/-- states in which an object key may appear. -/
def isKeyPS : PS → Bool
  | .psKeyFirst => true
  | .psKeyNext => true
  | _ => false

/-- state reached after a complete value, per the state it started in. -/
def afterPS : PS → PS
  | .psStart => .psDone
  | .psArrFirst => .psArrAfter
  | .psArrNext => .psArrAfter
  | .psObjVal => .psObjAfter
  | s => s

/-- Modelled from the spec: one grammar transition of the tokenizer.  The
container stack holds the state to resume at each close; opening a
container is refused once the nesting reaches the configured bound
(`config.depth = MAX_DEPTH - 1`, dbjson.c:251), which is how the
tokenizer "guards" the parser's own stack.  Besides the new
configuration, the events delivered to the callback are returned. -/
def pdaStep (s : PS) (stk : List PS) (t : Token) : Option (PS × List PS × List Event) :=
  match t with
  | .num n => if isValPS s then some (afterPS s, stk, [.int n]) else none
  | .tru => if isValPS s then some (afterPS s, stk, [.tru]) else none
  | .fls => if isValPS s then some (afterPS s, stk, [.fls]) else none
  | .nul => if isValPS s then some (afterPS s, stk, [.nul]) else none
  | .str v =>
    if isValPS s then some (afterPS s, stk, [.str v])
    else if isKeyPS s then some (.psColon, stk, [.key v])
    else none
  | .colon => if s = .psColon then some (.psObjVal, stk, []) else none
  | .comma =>
    if s = .psArrAfter then some (.psArrNext, stk, [])
    else if s = .psObjAfter then some (.psKeyNext, stk, [])
    else none
  | .lbrack =>
    if isValPS s then
      if stk.length < MAX_DEPTH - 1 then some (.psArrFirst, afterPS s :: stk, [.arrBegin])
      else none
    else none
  | .lbrace =>
    if isValPS s then
      if stk.length < MAX_DEPTH - 1 then some (.psKeyFirst, afterPS s :: stk, [.objBegin])
      else none
    else none
  | .rbrack =>
    if s = .psArrFirst || s = .psArrAfter then
      match stk with
      | r :: rs => some (r, rs, [.arrEnd])
      | [] => none
    else none
  | .rbrace =>
    if s = .psKeyFirst || s = .psObjAfter then
      match stk with
      | r :: rs => some (r, rs, [.objEnd])
      | [] => none
    else none

/-- run the grammar automaton over a token list: the events delivered
before any rejection, and whether the whole input forms one complete
document (the final check of JSON_parser_done). -/
def pdaRun : PS → List PS → List Token → List Event × Bool
  | s, stk, [] =>
    ([], match s, stk with
         | .psDone, [] => true
         | _, _ => false)
  | s, stk, t :: ts =>
    match pdaStep s stk t with
    | none => ([], false)
    | some (s2, stk2, evs) =>
      match pdaRun s2 stk2 ts with
      | (evs2, ok) => (evs ++ evs2, ok)

/-- Modelled from the spec: the external JSON tokenizer as configured by
run_json_parser (dbjson.c:250): scanning plus grammar validation with
depth bound MAX_DEPTH - 1, delivering JSON_T_* events to the callback.
Returns the events delivered before any failure, and whether every
JSON_parser_char call and the final JSON_parser_done check succeeded. -/
def tokenize (buf : List Char) : List Event × Bool :=
  match scan buf with
  | (toks, sOk) =>
    match pdaRun .psStart [] toks with
    | (evs, pOk) => (evs, sOk && pOk)

/-- run_json_parser from dbjson.c:232: feed the buffer through the
tokenizer with parse_json_cb attached; `-2` (fatal) when either the
tokenizer rejects a byte / the final done-check (in C both make
JSON_parser_char / JSON_parser_done return 0) or the callback reports
failure; `0` on success.  Returns the C result together with the final
callback context (whose `document` field is the out-parameter). -/
def run_json_parserFn (o : Oracle) (buf : List Char) (isparam : Bool) :
    Int × parser_context :=
  let ctx0 : parser_context := ⟨[], isparam, none, 0⟩
  match tokenize buf with
  | (evs, synOk) =>
    match runEvents o ctx0 evs with
    | (cbOk, ctx1) => (if cbOk && synOk then 0 else -2, ctx1)

/-- wg_parse_json_document from dbjson.c:202 (the in-memory document
driver): isparam = 0, document out-parameter ignored. -/
def wg_parse_json_document (o : Oracle) (buf : List Char) : Int :=
  (run_json_parserFn o buf false).1

/-- wg_parse_json_param from dbjson.c:214 (the in-memory parameter
driver): isparam = 1, top-level record returned through `document`. -/
def wg_parse_json_param (o : Oracle) (buf : List Char) : Int × Option Enc :=
  match run_json_parserFn o buf true with
  | (res, ctx) => (res, ctx.document)

/-- two-space indentation emitted by OUT_INDENT (dbjson.c:428). -/
def indentChars (indent : Nat) : List Char := List.replicate (2 * indent) ' '

mutual

/-- pretty_print_json from dbjson.c:523.  The branch dispatch mirrors the
C chain is_schema_object / is_schema_array / default-kvpair (matching on
the record kind is exactly those shape predicates); everything written to
the stream `f` is the returned character list, including what was emitted
before a failure; the Int is the C return value (0 success, -1 error).
The default branch reads fields WG_SCHEMA_KEY_OFFSET = 0 and
WG_SCHEMA_VALUE_OFFSET = 1; a handle that is not a record of length >= 2
makes those reads fail, modelled as the key-type error path. -/
def pretty_print_json (rec : Enc) (indent : Nat) (comma : Bool) (newline : Bool) :
    Int × List Char :=
  match rec with
  | .erec .kobj _ _ fs =>
    let head := (if comma then [','] else []) ++ ['\x7b', '\n']
    (match ppObjFields fs indent 0 with
     | (0, out) =>
       (0, head ++ out ++ indentChars indent ++ ['\x7d'] ++ (if newline then ['\n'] else []))
     | (e, out) => (e, head ++ out))
  | .erec .karr _ _ fs =>
    let head := (if comma then [','] else []) ++ ['[']
    (match ppArrFields fs indent 0 with
     | (0, out) => (0, head ++ out ++ [']'] ++ (if newline then ['\n'] else []))
     | (e, out) => (e, head ++ out))
  | .erec .kpair _ _ (key :: value :: _) =>
    if wg_get_encoded_type key ≠ .WG_STRTYPE then (-1, [])
    else
      let head := indentChars indent ++ (if comma then [','] else []) ++
        '"' :: wg_decode_str key ++ ['"', ':', ' ']
      (match wg_get_encoded_type value with
       | .WG_RECORDTYPE =>
         (match pretty_print_json (wg_decode_record value) indent false true with
          | (0, out1) => (0, head ++ out1)
          | (_, out1) => (-1, head ++ out1))
       | .WG_STRTYPE => (0, head ++ '"' :: wg_decode_str value ++ ['"', '\n'])
       | _ => (0, head ++ wg_snprint_value value ++ ['\n']))
  | _ => (-1, [])

/-- the object field loop of pretty_print_json (dbjson.c:533): every
field must be a record (a kvpair); recursion at indent+1, comma for i>0,
newline on. -/
def ppObjFields : List Enc → Nat → Nat → Int × List Char
  | [], _, _ => (0, [])
  | enc :: rest, indent, i =>
    if wg_get_encoded_type enc = .WG_RECORDTYPE then
      match pretty_print_json (wg_decode_record enc) (indent + 1) (i != 0) true with
      | (0, out1) =>
        (match ppObjFields rest indent (i + 1) with
         | (e, out2) => (e, out1 ++ out2))
      | (_, out1) => (-1, out1)
    else (-1, [])

/-- the array element loop of pretty_print_json (dbjson.c:553): nested
records recurse inline (same indent, comma for i>0, no newline), strings
print quoted, any other scalar through wg_snprint_value. -/
def ppArrFields : List Enc → Nat → Nat → Int × List Char
  | [], _, _ => (0, [])
  | enc :: rest, indent, i =>
    match wg_get_encoded_type enc with
    | .WG_RECORDTYPE =>
      (match pretty_print_json (wg_decode_record enc) indent (i != 0) false with
       | (0, out1) =>
         (match ppArrFields rest indent (i + 1) with
          | (e, out2) => (e, out1 ++ out2))
       | (_, out1) => (-1, out1))
    | .WG_STRTYPE =>
      let out1 := (if i != 0 then [','] else []) ++ '"' :: wg_decode_str enc ++ ['"']
      (match ppArrFields rest indent (i + 1) with
       | (e, out2) => (e, out1 ++ out2))
    | _ =>
      let out1 := (if i != 0 then [','] else []) ++ wg_snprint_value enc
      (match ppArrFields rest indent (i + 1) with
       | (e, out2) => (e, out1 ++ out2))

end

/-- wg_print_json_document from dbjson.c:506: a record that fails the
is_schema_document predicate is refused before anything is emitted (the
diagnostic goes to the side channel, not to `f`); otherwise the document
is pretty printed (C discards the printer's result; the emitted text is
returned here). -/
def wg_print_json_document (document : Enc) : List Char :=
  if is_schema_document document then (pretty_print_json document 0 false true).2
  else []

/-- character-list view of a string literal. -/
def chars (s : String) : List Char := s.toList

/-- opening brace character. -/
def obrace : Char := '\x7b'

/-- closing brace character. -/
def cbrace : Char := '\x7d'

/-- one JSON literal (scalar) value, as the tokenizer delivers it. -/
inductive JLit where
  | jint (n : Int)
  | jflt (q : Rat)
  | jstr (s : List Char)
deriving DecidableEq

/-- the tokenizer event delivering a literal. -/
def JLit.event : JLit → Event
  | .jint n => .int n
  | .jflt q => .flt q
  | .jstr s => .str s

/-- the store encoding of a literal (what wg_encode_int / wg_encode_double
/ wg_encode_str produce on success). -/
def JLit.enc : JLit → Enc
  | .jint n => .eint n
  | .jflt q => .edbl q
  | .jstr s => .estr s

/-- the two events a single object member produces: its key, then its
literal value. -/
def pairEvents (kv : List Char × JLit) : List Event := [.key kv.1, kv.2.event]

/-- the malformed buffer of the error-distinction claim. -/
def inpC1 : List Char := obrace :: chars "\"a\": " ++ [cbrace]

/-- an object whose sole member's value is an array. -/
def inpC2 : List Char := obrace :: chars "\"a\":[]" ++ [cbrace]

/-- the worked example input of the spec. -/
def inpC4 : List Char := obrace :: chars "\"a\":1,\"b\":[2,3]" ++ [cbrace]

/-- an oracle making exactly the store's third call fail: on input [1]
that call is the wg_set_field of the top-level pop (call 0 encodes the
integer, call 1 creates the array, call 2 sets its field). -/
def oracleC10 : Oracle := fun c => decide (c = 2)

/-- characters the printer emits verbatim inside quotes and the scanner
reads back unchanged: not a quote, not a backslash, not a control
character. -/
def plainChar (c : Char) : Bool := !(c = '"') && !(c = '\\') && 32 ≤ c.toNat

/-- strings of plain characters. -/
def plainStr (s : List Char) : Bool := s.all plainChar

mutual

/-- well-formedness (with the uniform isparam mark `b`) of a value a
materialized document may hold in an array field or as a member value,
restricted to the round-trippable fragment: integers whose decimal text
fits wg_snprint_value's 79-character buffer, plain strings, and nested
(non-toplevel) arrays/objects.  Doubles are excluded: their store-defined
text format is not exactly invertible. -/
def wfElem (b : Bool) : Enc → Bool
  | .eint n => decide ((intChars n).length ≤ 79)
  | .estr s => plainStr s
  | .erec .karr istop bp fs => !istop && (bp == b) && wfElems b fs
  | .erec .kobj istop bp fs => !istop && (bp == b) && wfPairs b fs
  | _ => false

/-- well-formedness of an array's field list. -/
def wfElems (b : Bool) : List Enc → Bool
  | [] => true
  | v :: rest => wfElem b v && wfElems b rest

/-- well-formedness of an object's field list: each field a kvpair whose
key is a plain string of at most 79 characters (as add_key materializes)
and whose value is well-formed. -/
def wfPairs (b : Bool) : List Enc → Bool
  | [] => true
  | .erec .kpair istop bp [.estr k, v] :: rest =>
    !istop && (bp == b) && plainStr k && decide (k.length ≤ 79) && wfElem b v &&
      wfPairs b rest
  | _ :: _ => false

end

/-- a well-formed materialized document: a toplevel array or object whose
content is well-formed (exactly the flag pattern the parse drivers
produce). -/
def wfDoc (b : Bool) : Enc → Bool
  | .erec .karr true bp fs => (bp == b) && wfElems b fs
  | .erec .kobj true bp fs => (bp == b) && wfPairs b fs
  | _ => false

mutual

/-- container nesting depth of a materialized value (kvpairs are
transparent: they open no container of their own). -/
def edepth : Enc → Nat
  | .erec .karr _ _ fs => 1 + edepthList fs
  | .erec .kobj _ _ fs => 1 + edepthList fs
  | .erec .kpair _ _ fs =>
    (match fs with
     | [_, v] => edepth v
     | _ => 0)
  | _ => 0

/-- maximal depth over a field list. -/
def edepthList : List Enc → Nat
  | [] => 0
  | v :: rest => max (edepth v) (edepthList rest)

end

mutual

/-- the event sequence the tokenizer delivers for the printed text of one
value (kvpairs appear only as object fields, via pairsEvents). -/
def elemEvents : Enc → List Event
  | .eint n => [.int n]
  | .estr s => [.str s]
  | .erec .karr _ _ fs => .arrBegin :: elemsEvents fs ++ [.arrEnd]
  | .erec .kobj _ _ fs => .objBegin :: pairsEvents fs ++ [.objEnd]
  | _ => []

/-- events of an array's printed fields, in order. -/
def elemsEvents : List Enc → List Event
  | [] => []
  | v :: rest => elemEvents v ++ elemsEvents rest

/-- events of an object's printed fields: key then value, per kvpair. -/
def pairsEvents : List Enc → List Event
  | [] => []
  | .erec .kpair _ _ [.estr k, v] :: rest => .key k :: (elemEvents v ++ pairsEvents rest)
  | _ :: rest => pairsEvents rest

end

mutual

/-- the token sequence the scanner recognizes in the printed text of one
value. -/
def elemToks : Enc → List Token
  | .eint n => [.num n]
  | .estr s => [.str s]
  | .erec .karr _ _ fs => .lbrack :: elemsToks true fs ++ [.rbrack]
  | .erec .kobj _ _ fs => .lbrace :: pairsToks true fs ++ [.rbrace]
  | _ => []

/-- tokens of an array's printed fields (comma-separated; `first` is set
for the first field). -/
def elemsToks (first : Bool) : List Enc → List Token
  | [] => []
  | v :: rest =>
    (if first then [] else [.comma]) ++ elemToks v ++ elemsToks false rest

/-- tokens of an object's printed fields. -/
def pairsToks (first : Bool) : List Enc → List Token
  | [] => []
  | .erec .kpair _ _ [.estr k, v] :: rest =>
    (if first then [] else [.comma]) ++ .str k :: .colon :: elemToks v ++ pairsToks false rest
  | _ :: rest => pairsToks false rest

end

/-- store calls consumed by wrapping a finished value into its enclosing
frame: none in an array, two in an object (wg_encode_str of the key and
wg_create_kvpair). -/
def wrapT : stack_entry_t → Nat
  | .ARRAY => 0
  | .OBJECT => 2

mutual

/-- store calls consumed while the consumer processes one value's events,
with the enclosing frame of the given type on top: the scalar encode (or
the container's create plus one set_field per field) plus the wrap cost. -/
def elemTicks (ft : stack_entry_t) : Enc → Nat
  | .eint _ => 1 + wrapT ft
  | .estr _ => 1 + wrapT ft
  | .erec .karr _ _ fs => elemsTicks fs + 1 + fs.length + wrapT ft
  | .erec .kobj _ _ fs => pairsTicks fs + 1 + fs.length + wrapT ft
  | .erec .kpair _ _ fs =>
    (match fs with
     | [_, v] => elemTicks .OBJECT v
     | _ => 0)
  | _ => 0

/-- ticks of an array's fields. -/
def elemsTicks : List Enc → Nat
  | [] => 0
  | v :: rest => elemTicks .ARRAY v + elemsTicks rest

/-- ticks of an object's fields. -/
def pairsTicks : List Enc → Nat
  | [] => 0
  | kv :: rest => elemTicks .OBJECT kv + pairsTicks rest

end

/-- a re-scan continuation is safe after a printed number when it does
not begin with a digit (the printer always follows a number with a
delimiter). -/
def safeRest : List Char → Bool
  | [] => true
  | c :: _ => !(isDigitC c)

/-- the string-with-a-quote document refuting the unconditional
round-trip: its printed text contains an unescaped quote. -/
def docC7 : Enc := .erec .karr true false [.estr ['a', '"', 'b']]

/-- a concrete well-formed document used to witness the round-trip. -/
def docC7w : Enc :=
  .erec .kobj true false
    [.erec .kpair false false [.estr ['a'], .eint 1],
     .erec .kpair false false [.estr ['b'],
       .erec .karr false false [.eint 2, .eint (-3), .estr ['z']]]]

/-- the pending-key buffer's contents after processing an object field
list (each key event overwrites it with the truncated key). -/
def lastKeyAfter (k0 : List Char) : List Enc → List Char
  | [] => k0
  | .erec .kpair _ _ [.estr k, _] :: rest => lastKeyAfter (k.take 79) rest
  | _ :: rest => lastKeyAfter k0 rest

/-- the JSON text (with an escaped quote) whose parse materializes
docC7. -/
def inpC7 : List Char := ['[', '"', 'a', '\\', '"', 'b', '"', ']']

/-! ### Characterizations of the stack operations -/

theorem add_elem_cons (e : stack_entry) (rest : List stack_entry) (p : Bool)
    (doc : Option Enc) (c : Nat) (v : Enc) :
    add_elem ⟨e :: rest, p, doc, c⟩ v =
      (true, ⟨{ e with elems := e.elems ++ [v] } :: rest, p, doc, c⟩) := rfl

theorem add_literal_cons (o : Oracle) (e : stack_entry) (rest : List stack_entry)
    (p : Bool) (doc : Option Enc) (c : Nat) (v : Enc) :
    add_literal o ⟨e :: rest, p, doc, c⟩ v =
      (match e.type with
       | .ARRAY => (true, ⟨{ e with elems := e.elems ++ [v] } :: rest, p, doc, c⟩)
       | .OBJECT =>
         if o c then (false, ⟨e :: rest, p, doc, c + 1⟩)
         else if o (c + 1) then (false, ⟨e :: rest, p, doc, c + 2⟩)
         else (true,
           ⟨{ e with
                elems := e.elems ++ [.erec .kpair false p [.estr e.last_key, v]] } :: rest,
             p, doc, c + 2⟩)) := by
  cases he : e.type with
  | ARRAY => simp [add_literal, he, add_elem]
  | OBJECT =>
    by_cases h1 : o c
    · simp [add_literal, he, wg_encode_str, h1]
    · by_cases h2 : o (c + 1)
      · simp [add_literal, he, wg_encode_str, wg_create_kvpair, h1, h2]
      · simp [add_literal, he, wg_encode_str, wg_create_kvpair, wg_encode_record,
          add_elem, h1, h2]

theorem add_literal_stack_length (o : Oracle) (ctx : parser_context) (v : Enc) :
    (add_literal o ctx v).2.stack.length = ctx.stack.length := by
  rcases ctx with ⟨stk, p, doc, c⟩
  cases stk with
  | nil => simp [add_literal]
  | cons e rest =>
    rw [add_literal_cons]
    cases e.type
    · simp
    · by_cases h1 : o c
      · simp [h1]
      · by_cases h2 : o (c + 1) <;> simp [h1, h2]

theorem pop_fill_nofail :
    ∀ (es pre : List Enc) (k : rkind) (t p : Bool) (c : Nat),
      pop_fill nofail (.erec k t p (pre ++ List.replicate es.length .unset)) c es pre.length =
        (.erec k t p (pre ++ es), true, c + es.length) := by
  intro es
  induction es with
  | nil => intro pre k t p c; simp [pop_fill]
  | cons v rest ih =>
    intro pre k t p c
    have hlt : pre.length < (pre ++ List.replicate (rest.length + 1) Enc.unset).length := by
      simp
    have hset : (pre ++ List.replicate (rest.length + 1) Enc.unset).set pre.length v =
        (pre ++ [v]) ++ List.replicate rest.length Enc.unset := by
      rw [List.set_append_right pre.length v (le_refl pre.length)]
      simp [List.replicate_succ]
    have hih := ih (pre ++ [v]) k t p (c + 1)
    simp only [List.length_append, List.length_cons, List.length_nil] at hih
    simp only [List.length_cons, pop_fill, wg_set_field, nofail, Bool.false_eq_true,
      if_false, hlt, if_true, hset]
    simp only [List.append_assoc, List.singleton_append] at hih ⊢
    rw [hih]
    simp only [Prod.mk.injEq, true_and]
    omega

/-- pop with no store failure, on the outermost entry: materializes the
record (fields in queue order) and stores it as the document. -/
theorem pop_nofail_toplevel (e : stack_entry) (p : Bool) (doc : Option Enc) (c : Nat) :
    pop nofail ⟨[e], p, doc, c⟩ =
      (true,
       ⟨[], p,
        some (.erec (match e.type with | .ARRAY => rkind.karr | .OBJECT => rkind.kobj)
          true p e.elems),
        c + 1 + e.elems.length⟩) := by
  cases he : e.type with
  | ARRAY =>
    have h0 := pop_fill_nofail e.elems [] rkind.karr true p (c + 1)
    simp only [List.nil_append, List.length_nil] at h0
    simp [pop, wg_create_array, nofail, he, h0]
  | OBJECT =>
    have h0 := pop_fill_nofail e.elems [] rkind.kobj true p (c + 1)
    simp only [List.nil_append, List.length_nil] at h0
    simp [pop, wg_create_object, nofail, he, h0]

/-- pop with no store failure, below the outermost entry: materializes the
record and hands its encoded handle to add_literal on the new top. -/
theorem pop_nofail_inner (e e2 : stack_entry) (rest : List stack_entry) (p : Bool)
    (doc : Option Enc) (c : Nat) :
    pop nofail ⟨e :: e2 :: rest, p, doc, c⟩ =
      add_literal nofail ⟨e2 :: rest, p, doc, c + 1 + e.elems.length⟩
        (wg_encode_record
          (.erec (match e.type with | .ARRAY => rkind.karr | .OBJECT => rkind.kobj)
            false p e.elems)) := by
  cases he : e.type with
  | ARRAY =>
    have h0 := pop_fill_nofail e.elems [] rkind.karr false p (c + 1)
    simp only [List.nil_append, List.length_nil] at h0
    simp [pop, wg_create_array, nofail, he, h0, wg_encode_record]
  | OBJECT =>
    have h0 := pop_fill_nofail e.elems [] rkind.kobj false p (c + 1)
    simp only [List.nil_append, List.length_nil] at h0
    simp [pop, wg_create_object, nofail, he, h0, wg_encode_record]

theorem add_key_stack_length (ctx : parser_context) (k : List Char) :
    ((add_key ctx k).2).stack.length = ctx.stack.length := by
  rcases ctx with ⟨stk, p, doc, c⟩
  cases stk <;> simp [add_key]

theorem push_stack_le (ctx : parser_context) (t : stack_entry_t)
    (h : ctx.stack.length ≤ MAX_DEPTH) :
    ((push ctx t).2).stack.length ≤ MAX_DEPTH := by
  unfold push
  split
  · exact h
  · simp only [List.length_cons]
    omega

theorem pop_stack_le (o : Oracle) (ctx : parser_context) :
    ((pop o ctx).2).stack.length ≤ ctx.stack.length := by
  rcases ctx with ⟨stk, p, doc, c⟩
  cases stk with
  | nil => simp [pop]
  | cons e rest =>
    have hlit : ∀ (doc2 : Option Enc) (c2 : Nat) (v : Enc),
        ((add_literal o ⟨rest, p, doc2, c2⟩ v).2).stack.length ≤ (e :: rest).length := by
      intro doc2 c2 v
      rw [add_literal_stack_length]
      simp
    cases he : e.type <;>
      · by_cases ho : o c
        · simp [pop, he, wg_create_array, wg_create_object, ho]
        · rcases hpf : pop_fill o
              (.erec (match e.type with | .ARRAY => .karr | .OBJECT => .kobj)
                rest.isEmpty p (List.replicate e.elems.length .unset)) (c + 1) e.elems 0 with
            ⟨rec1, ret, c2⟩
          rw [he] at hpf
          simp only [pop, he, wg_create_array, wg_create_object, ho, Bool.false_eq_true,
            if_false, hpf]
          cases ret
          · simp
          · simp only [if_true]
            by_cases hemp : rest.isEmpty
            · simp [hemp]
            · simp only [hemp, Bool.false_eq_true, if_false]
              exact hlit _ _ _

theorem parse_json_cb_stack_le (o : Oracle) (ctx : parser_context) (ev : Event)
    (h : ctx.stack.length ≤ MAX_DEPTH) :
    ((parse_json_cb o ctx ev).2).stack.length ≤ MAX_DEPTH := by
  cases ev with
  | arrBegin => exact push_stack_le ctx _ h
  | objBegin => exact push_stack_le ctx _ h
  | arrEnd => exact le_trans (pop_stack_le o ctx) h
  | objEnd => exact le_trans (pop_stack_le o ctx) h
  | key s =>
    have := add_key_stack_length ctx s
    simp only [parse_json_cb]
    omega
  | int n =>
    simp only [parse_json_cb, wg_encode_int]
    by_cases ho : o ctx.dbctr
    · simpa [ho] using h
    · have := add_literal_stack_length o { ctx with dbctr := ctx.dbctr + 1 } (.eint n)
      simp only [ho, Bool.false_eq_true, if_false]
      simp only at this
      omega
  | flt q =>
    simp only [parse_json_cb, wg_encode_double]
    by_cases ho : o ctx.dbctr
    · simpa [ho] using h
    · have := add_literal_stack_length o { ctx with dbctr := ctx.dbctr + 1 } (.edbl q)
      simp only [ho, Bool.false_eq_true, if_false]
      simp only at this
      omega
  | str s =>
    simp only [parse_json_cb, wg_encode_str]
    by_cases ho : o ctx.dbctr
    · simpa [ho] using h
    · have := add_literal_stack_length o { ctx with dbctr := ctx.dbctr + 1 } (.estr s)
      simp only [ho, Bool.false_eq_true, if_false]
      simp only at this
      omega
  | tru => exact h
  | fls => exact h
  | nul => exact h

theorem runEvents_stack_le (o : Oracle) (evs : List Event) :
    ∀ ctx : parser_context, ctx.stack.length ≤ MAX_DEPTH →
      ((runEvents o ctx evs).2).stack.length ≤ MAX_DEPTH := by
  induction evs with
  | nil => intro ctx h; exact h
  | cons ev rest ih =>
    intro ctx h
    simp only [runEvents]
    rcases hcb : parse_json_cb o ctx ev with ⟨b, ctx1⟩
    have h1 : ctx1.stack.length ≤ MAX_DEPTH := by
      have := parse_json_cb_stack_le o ctx ev h
      rw [hcb] at this
      exact this
    cases b
    · exact h1
    · exact ih ctx1 h1

theorem runEvents_literals_array (p : Bool) :
    ∀ (lits : List JLit) (elems : List Enc) (lk : List Char)
      (rest : List stack_entry) (doc : Option Enc) (c : Nat) (evs : List Event),
      runEvents nofail ⟨⟨.ARRAY, elems, lk⟩ :: rest, p, doc, c⟩
          (lits.map JLit.event ++ evs) =
        runEvents nofail ⟨⟨.ARRAY, elems ++ lits.map JLit.enc, lk⟩ :: rest, p, doc,
          c + lits.length⟩ evs := by
  intro lits
  induction lits with
  | nil => intro elems lk rest doc c evs; simp
  | cons l ls ih =>
    intro elems lk rest doc c evs
    have hstep : parse_json_cb nofail ⟨⟨.ARRAY, elems, lk⟩ :: rest, p, doc, c⟩ l.event =
        (true, ⟨⟨.ARRAY, elems ++ [l.enc], lk⟩ :: rest, p, doc, c + 1⟩) := by
      cases l <;>
        simp [parse_json_cb, JLit.event, JLit.enc, wg_encode_int, wg_encode_double,
          wg_encode_str, nofail, add_literal, add_elem]
    simp only [List.map_cons, List.cons_append, runEvents, hstep, List.append_eq]
    rw [ih (elems ++ [l.enc]) lk rest doc (c + 1) evs]
    have h1 : (elems ++ [l.enc]) ++ List.map JLit.enc ls =
        elems ++ List.map JLit.enc (l :: ls) := by simp
    have h2 : c + 1 + ls.length = c + (l :: ls).length := by
      simp only [List.length_cons]
      omega
    rw [h1, h2]
    rfl

theorem runEvents_pairs_object (p : Bool) :
    ∀ (pairs : List (List Char × JLit)) (elems : List Enc) (lk : List Char)
      (rest : List stack_entry) (doc : Option Enc) (c : Nat) (evs : List Event),
      runEvents nofail ⟨⟨.OBJECT, elems, lk⟩ :: rest, p, doc, c⟩
          ((List.map pairEvents pairs).flatten ++ evs) =
        runEvents nofail
          ⟨⟨.OBJECT,
             elems ++ pairs.map (fun kv =>
               .erec .kpair false p [.estr (kv.1.take 79), kv.2.enc]),
             pairs.foldl (fun _ kv => kv.1.take 79) lk⟩ :: rest, p, doc,
            c + 3 * pairs.length⟩ evs := by
  intro pairs
  induction pairs with
  | nil => intro elems lk rest doc c evs; simp
  | cons kv ps ih =>
    intro elems lk rest doc c evs
    have hkey : parse_json_cb nofail ⟨⟨.OBJECT, elems, lk⟩ :: rest, p, doc, c⟩ (.key kv.1) =
        (true, ⟨⟨.OBJECT, elems, kv.1.take 79⟩ :: rest, p, doc, c⟩) := by
      simp [parse_json_cb, add_key]
    have hval : parse_json_cb nofail ⟨⟨.OBJECT, elems, kv.1.take 79⟩ :: rest, p, doc, c⟩
          kv.2.event =
        (true, ⟨⟨.OBJECT,
            elems ++ [.erec .kpair false p [.estr (kv.1.take 79), kv.2.enc]],
            kv.1.take 79⟩ :: rest, p, doc, c + 3⟩) := by
      cases hl : kv.2 <;>
        simp [parse_json_cb, JLit.event, JLit.enc, wg_encode_int, wg_encode_double,
          wg_encode_str, wg_create_kvpair, wg_encode_record, nofail, add_literal, add_elem]
    simp only [List.map_cons, List.flatten_cons, List.append_assoc, List.cons_append,
      runEvents, hkey, hval, pairEvents, List.append_eq, List.nil_append]
    rw [ih (elems ++ [Enc.erec rkind.kpair false p [Enc.estr (kv.1.take 79), kv.2.enc]])
      (kv.1.take 79) rest doc (c + 3) evs]
    have h1 : (elems ++ [Enc.erec rkind.kpair false p [Enc.estr (kv.1.take 79), kv.2.enc]]) ++
        List.map (fun kv => Enc.erec rkind.kpair false p [Enc.estr (kv.1.take 79), kv.2.enc])
          ps =
        elems ++
          List.map (fun kv => Enc.erec rkind.kpair false p [Enc.estr (kv.1.take 79), kv.2.enc])
            (kv :: ps) := by simp
    have h2 : c + 3 + 3 * ps.length = c + 3 * (kv :: ps).length := by
      simp only [List.length_cons]
      omega
    rw [h1, h2]
    rfl

/-! ### Claim theorems -/

/-- C5: push refuses exactly when the incremented stack index would reach
MAX_DEPTH (it never writes outside the fixed-capacity stack); end to end,
nesting MAX_DEPTH - 1 container levels parses successfully while nesting
MAX_DEPTH levels is rejected deterministically (by the tokenizer's
depth bound MAX_DEPTH - 1, which run_json_parser configures, so the
driver reports the rejection); and the parser stack never exceeds
MAX_DEPTH entries under any event sequence whatsoever. -/
theorem C5_depth_bound :
    (∀ (ctx : parser_context) (t : stack_entry_t),
        ((push ctx t).1 = false ↔ MAX_DEPTH ≤ ctx.stack.length)) ∧
    wg_parse_json_document nofail
      (List.replicate (MAX_DEPTH - 1) '[' ++ List.replicate (MAX_DEPTH - 1) ']') = 0 ∧
    wg_parse_json_document nofail
      (List.replicate MAX_DEPTH '[' ++ List.replicate MAX_DEPTH ']') = -2 ∧
    (∀ (o : Oracle) (evs : List Event) (ctx : parser_context),
        ctx.stack.length ≤ MAX_DEPTH →
        ((runEvents o ctx evs).2).stack.length ≤ MAX_DEPTH) := by
  refine ⟨?_, rfl, rfl, fun o evs ctx h => runEvents_stack_le o evs ctx h⟩
  intro ctx t
  unfold push
  split
  case isTrue h => simpa using h
  case isFalse h => simpa using h

theorem C5_depth_bound_witness :
    (⟨[⟨.ARRAY, [], []⟩], false, none, 0⟩ : parser_context).stack.length ≤ MAX_DEPTH ∧
    ((runEvents nofail (⟨[⟨.ARRAY, [], []⟩], false, none, 0⟩ : parser_context)
        [.arrBegin, .arrEnd]).2).stack.length ≤ MAX_DEPTH :=
  ⟨by decide, C5_depth_bound.2.2.2 nofail [.arrBegin, .arrEnd] _ (by decide)⟩

/-- C6: add_key stores exactly the first 79 characters of the key (the
whole key when it is at most 79 characters long) and always succeeds when
an entry is open. -/
theorem C6_add_key_truncates :
    (∀ (e : stack_entry) (rest : List stack_entry) (p : Bool) (doc : Option Enc)
        (c : Nat) (key : List Char),
        add_key ⟨e :: rest, p, doc, c⟩ key =
          (true, ⟨{ e with last_key := key.take 79 } :: rest, p, doc, c⟩)) ∧
    (∀ key : List Char, key.length ≤ 79 → key.take 79 = key) := by
  constructor
  · intro e rest p doc c key
    rfl
  · intro key h
    exact List.take_of_length_le h

theorem C6_add_key_truncates_witness :
    add_key ⟨[⟨.OBJECT, [], []⟩], false, none, 0⟩ (chars "k") =
      (true, ⟨[⟨.OBJECT, [], (chars "k").take 79⟩], false, none, 0⟩) ∧
    (chars "k").take 79 = chars "k" :=
  ⟨C6_add_key_truncates.1 ⟨.OBJECT, [], []⟩ [] false none 0 (chars "k"),
   C6_add_key_truncates.2 (chars "k") (by decide)⟩

/-- C9: events outside the handled set (booleans, null) make the callback
return success without touching the stack, the document slot or the
store, so such values are silently dropped: [true] materializes as an
empty array. -/
theorem C9_bool_null_dropped :
    (∀ (o : Oracle) (ctx : parser_context),
        parse_json_cb o ctx .tru = (true, ctx) ∧
        parse_json_cb o ctx .fls = (true, ctx) ∧
        parse_json_cb o ctx .nul = (true, ctx)) ∧
    wg_parse_json_param nofail (chars "[true]") = (0, some (.erec .karr true true [])) :=
  ⟨fun _ _ => ⟨rfl, rfl, rfl⟩, rfl⟩

/-- C2 (counterexample): on an object containing an array, the popped
array's encoded handle does not itself become the child of the object
frame: the child is a kvpair record wrapping it (pop hands the handle to
add_literal, not directly to add_elem). -/
theorem C2_counterexample :
    (wg_parse_json_param nofail inpC2).2 =
      some (.erec .kobj true true
        [.erec .kpair false true [.estr ['a'], .erec .karr false true []]]) ∧
    wg_get_field ((wg_parse_json_param nofail inpC2).2.getD .unset) 0 ≠
      wg_encode_record (.erec .karr false true []) := by
  constructor
  · rfl
  · have h1 : wg_get_field ((wg_parse_json_param nofail inpC2).2.getD .unset) 0 =
        .erec .kpair false true [.estr ['a'], .erec .karr false true []] := rfl
    rw [h1, wg_encode_record]
    intro h
    simp at h

/-- C2 (amended): a pop that leaves the stack non-empty hands the newly
materialized record's encoded handle to add_literal on the new top entry
- which appends the handle itself when that entry is an array but wraps
it in a kvpair under the pending key when it is an object - and only the
outermost pop stores the record as the parse's document output. -/
theorem C2_pop_hands_to_add_literal :
    (∀ (e e2 : stack_entry) (rest : List stack_entry) (p : Bool) (doc : Option Enc)
        (c : Nat),
        pop nofail ⟨e :: e2 :: rest, p, doc, c⟩ =
          add_literal nofail ⟨e2 :: rest, p, doc, c + 1 + e.elems.length⟩
            (wg_encode_record
              (.erec (match e.type with | .ARRAY => rkind.karr | .OBJECT => rkind.kobj)
                false p e.elems))) ∧
    (∀ (e2 : stack_entry) (rest : List stack_entry) (p : Bool) (doc : Option Enc)
        (c : Nat) (v : Enc),
        add_literal nofail ⟨e2 :: rest, p, doc, c⟩ v =
          (match e2.type with
           | .ARRAY => (true, ⟨{ e2 with elems := e2.elems ++ [v] } :: rest, p, doc, c⟩)
           | .OBJECT =>
             (true,
              ⟨{ e2 with
                   elems := e2.elems ++ [.erec .kpair false p [.estr e2.last_key, v]] } ::
                 rest, p, doc, c + 2⟩))) ∧
    (∀ (e : stack_entry) (p : Bool) (doc : Option Enc) (c : Nat),
        pop nofail ⟨[e], p, doc, c⟩ =
          (true,
           ⟨[], p,
            some (.erec (match e.type with | .ARRAY => rkind.karr | .OBJECT => rkind.kobj)
              true p e.elems),
            c + 1 + e.elems.length⟩)) := by
  refine ⟨pop_nofail_inner, ?_, pop_nofail_toplevel⟩
  intro e2 rest p doc c v
  rw [add_literal_cons]
  cases e2.type
  · rfl
  · simp [nofail]

/-- C3: the event sequence of a well-formed JSON array of N literal
values (integers, floats, strings), run from the initial parser context
with no store failure, materializes an array record of length exactly N
whose field i encodes the i-th literal in source order. -/
theorem C3_array_of_literals :
    (∀ lits : List JLit,
        runEvents nofail ⟨[], false, none, 0⟩
            (.arrBegin :: (lits.map JLit.event ++ [.arrEnd])) =
          (true, ⟨[], false, some (.erec .karr true false (lits.map JLit.enc)),
            lits.length + 1 + lits.length⟩)) ∧
    (∀ lits : List JLit, (lits.map JLit.enc).length = lits.length) ∧
    (∀ (lits : List JLit) (i : Nat) (h : i < lits.length),
        (lits.map JLit.enc).get ⟨i, by simpa using h⟩ = JLit.enc (lits.get ⟨i, h⟩)) := by
  refine ⟨?_, fun lits => by simp, fun lits i h => by simp⟩
  intro lits
  have h0 : parse_json_cb nofail ⟨[], false, none, 0⟩ .arrBegin =
      (true, ⟨[⟨.ARRAY, [], []⟩], false, none, 0⟩) := rfl
  simp only [runEvents, h0]
  rw [runEvents_literals_array false lits [] [] [] none 0 [.arrEnd]]
  simp only [List.nil_append, Nat.zero_add]
  have h1 := pop_nofail_toplevel ⟨.ARRAY, lits.map JLit.enc, []⟩ false none lits.length
  simp only at h1
  simp only [runEvents, parse_json_cb, h1]
  simp

theorem C3_array_of_literals_witness :
    runEvents nofail ⟨[], false, none, 0⟩
        (.arrBegin :: ([JLit.jint 7, JLit.jstr ['x']].map JLit.event ++ [.arrEnd])) =
      (true, ⟨[], false, some (.erec .karr true false [.eint 7, .estr ['x']]),
        2 + 1 + 2⟩) ∧
    ([JLit.jint 7, JLit.jstr ['x']].map JLit.enc).get ⟨0, by decide⟩ =
      JLit.enc ([JLit.jint 7, JLit.jstr ['x']].get ⟨0, by decide⟩) :=
  ⟨C3_array_of_literals.1 [JLit.jint 7, JLit.jstr ['x']],
   C3_array_of_literals.2.2 [JLit.jint 7, JLit.jstr ['x']] 0 (by decide)⟩

/-- C4: the event sequence of a well-formed JSON object with keys in
insertion order, run from the initial parser context with no store
failure, materializes an object record with exactly one kvpair element
per key in that order, each key truncated to 79 characters and each value
the encoded literal; in particular the spec's worked example input yields
the expected two-member object. -/
theorem C4_object_pairs :
    (∀ pairs : List (List Char × JLit),
        runEvents nofail ⟨[], false, none, 0⟩
            (.objBegin :: ((pairs.map pairEvents).flatten ++ [.objEnd])) =
          (true, ⟨[], false,
            some (.erec .kobj true false
              (pairs.map fun kv =>
                .erec .kpair false false [.estr (kv.1.take 79), kv.2.enc])),
            3 * pairs.length + 1 + pairs.length⟩)) ∧
    (run_json_parserFn nofail inpC4 false).1 = 0 ∧
    (run_json_parserFn nofail inpC4 false).2.document =
      some (.erec .kobj true false
        [.erec .kpair false false [.estr ['a'], .eint 1],
         .erec .kpair false false [.estr ['b'],
           .erec .karr false false [.eint 2, .eint 3]]]) := by
  refine ⟨?_, rfl, rfl⟩
  intro pairs
  have h0 : parse_json_cb nofail ⟨[], false, none, 0⟩ .objBegin =
      (true, ⟨[⟨.OBJECT, [], []⟩], false, none, 0⟩) := rfl
  simp only [runEvents, h0]
  rw [runEvents_pairs_object false pairs [] [] [] none 0 [.objEnd]]
  simp only [List.nil_append, Nat.zero_add]
  have h1 := pop_nofail_toplevel
    ⟨.OBJECT,
     pairs.map (fun kv => .erec .kpair false false [.estr (kv.1.take 79), kv.2.enc]),
     pairs.foldl (fun _ kv => kv.1.take 79) []⟩ false none (3 * pairs.length)
  simp only at h1
  simp only [runEvents, parse_json_cb, h1]
  simp

/-- C10: with an oracle making the store's field write fail during the
outermost pop (input [1]: call 0 encodes the integer, call 1 creates the
array, call 2 is the failing wg_set_field), wg_parse_json_param returns
Fatal (-2) yet its document out-parameter has been written with the
created, incompletely filled top-level record (its only field still
unset). -/
theorem C10_fatal_partial_document :
    wg_parse_json_param oracleC10 (chars "[1]") =
      (-2, some (.erec .karr true true [.unset])) := rfl

/-- C1 (counterexample): the malformed in-memory buffer of the claim is
answered with Fatal (-2), not NonFatal (-1), by the document driver. -/
theorem C1_counterexample :
    wg_parse_json_document nofail inpC1 = -2 ∧
    ¬ wg_parse_json_document nofail inpC1 = -1 := by
  constructor
  · rfl
  · intro h
    rw [show wg_parse_json_document nofail inpC1 = -2 from rfl] at h
    exact absurd h (by decide)

/-- C1 (amended): every buffer the tokenizer rejects makes both in-memory
drivers return Fatal (-2) - the same code as materializing-pass failures
- and the in-memory drivers can never return NonFatal (-1): that code
arises only from wg_parse_json_file's validation pass. -/
theorem C1_inmemory_rejection_is_fatal :
    (∀ (o : Oracle) (buf : List Char),
        (tokenize buf).2 = false →
          wg_parse_json_document o buf = -2 ∧ (wg_parse_json_param o buf).1 = -2) ∧
    (∀ (o : Oracle) (buf : List Char),
        wg_parse_json_document o buf ≠ -1 ∧ (wg_parse_json_param o buf).1 ≠ -1) := by
  constructor
  · intro o buf h
    rcases htok : tokenize buf with ⟨evs, synOk⟩
    rw [htok] at h
    simp only at h
    subst h
    rcases hre : runEvents o ⟨[], false, none, 0⟩ evs with ⟨cbOk, ctx1⟩
    rcases hre2 : runEvents o ⟨[], true, none, 0⟩ evs with ⟨cbOk2, ctx2⟩
    constructor
    · simp [wg_parse_json_document, run_json_parserFn, htok, hre]
    · simp [wg_parse_json_param, run_json_parserFn, htok, hre2]
  · intro o buf
    rcases htok : tokenize buf with ⟨evs, synOk⟩
    rcases hre : runEvents o ⟨[], false, none, 0⟩ evs with ⟨cbOk, ctx1⟩
    rcases hre2 : runEvents o ⟨[], true, none, 0⟩ evs with ⟨cbOk2, ctx2⟩
    constructor
    · simp only [wg_parse_json_document, run_json_parserFn, htok, hre]
      split <;> decide
    · simp only [wg_parse_json_param, run_json_parserFn, htok, hre2]
      split <;> decide

theorem C1_inmemory_rejection_is_fatal_witness :
    (tokenize inpC1).2 = false ∧
    (wg_parse_json_document nofail inpC1 = -2 ∧
      (wg_parse_json_param nofail inpC1).1 = -2) ∧
    wg_parse_json_document nofail inpC1 ≠ -1 :=
  ⟨rfl, C1_inmemory_rejection_is_fatal.1 nofail inpC1 rfl,
   (C1_inmemory_rejection_is_fatal.2 nofail inpC1).1⟩

/-- C8: the top-level print entry point emits no text at all for records
failing the is-a-document predicate and prints exactly the pretty-printer
output for records satisfying it; a concrete non-document fragment whose
pretty-printed form would be non-empty is printed as nothing. -/
theorem C8_print_gated_by_document_predicate :
    (∀ rec : Enc, is_schema_document rec = false → wg_print_json_document rec = []) ∧
    (∀ rec : Enc, is_schema_document rec = true →
        wg_print_json_document rec = (pretty_print_json rec 0 false true).2) ∧
    wg_print_json_document (.erec .karr false false [.eint 1]) = [] ∧
    (pretty_print_json (.erec .karr false false [.eint 1]) 0 false true).2 ≠ [] := by
  refine ⟨?_, ?_, rfl, ?_⟩
  · intro rec h
    simp [wg_print_json_document, h]
  · intro rec h
    simp [wg_print_json_document, h]
  · intro h
    rw [show (pretty_print_json (.erec .karr false false [.eint 1]) 0 false true).2 =
        ['[', '1', ']', '\n'] from rfl] at h
    exact absurd h (by decide)

theorem C8_print_gated_witness :
    wg_print_json_document (.erec .kpair false false [.estr ['a'], .eint 1]) = [] ∧
    wg_print_json_document (.erec .karr true false [.eint 1]) =
      (pretty_print_json (.erec .karr true false [.eint 1]) 0 false true).2 :=
  ⟨C8_print_gated_by_document_predicate.1 _ rfl,
   C8_print_gated_by_document_predicate.2.1 _ rfl⟩

/-! ### Scanner lemmas for the printed text -/

theorem charDigit_digitChar (d : Nat) (h : d < 10) : charDigit (digitChar d) = d := by
  interval_cases d <;> rfl

theorem isDigitC_digitChar (d : Nat) (h : d < 10) : isDigitC (digitChar d) = true := by
  interval_cases d <;> rfl

theorem natCharsF_digits :
    ∀ (fuel n : Nat), ∀ c ∈ natCharsF fuel n, isDigitC c = true := by
  intro fuel
  induction fuel with
  | zero => intro n c hc; simp [natCharsF] at hc
  | succ f ih =>
    intro n c hc
    by_cases h0 : n = 0
    · simp [natCharsF, h0] at hc
    · simp only [natCharsF, h0, if_false] at hc
      rcases List.mem_append.mp hc with h | h
      · exact ih (n / 10) c h
      · have : c = digitChar (n % 10) := by simpa using h
        subst this
        exact isDigitC_digitChar _ (Nat.mod_lt _ (by omega))

theorem natChars_digits (m : Nat) : ∀ c ∈ natChars m, isDigitC c = true := by
  intro c hc
  by_cases h0 : m = 0
  · simp [natChars, h0] at hc
    subst hc
    rfl
  · simp only [natChars, h0, if_false] at hc
    exact natCharsF_digits m m c hc

theorem digitsVal_append (xs : List Nat) (d : Nat) :
    digitsVal (xs ++ [d]) = digitsVal xs * 10 + d := by
  simp [digitsVal, List.foldl_append]

theorem digitsVal_natCharsF :
    ∀ (fuel n : Nat), n ≤ fuel → digitsVal ((natCharsF fuel n).map charDigit) = n := by
  intro fuel
  induction fuel with
  | zero => intro n h; interval_cases n; rfl
  | succ f ih =>
    intro n h
    by_cases h0 : n = 0
    · simp [natCharsF, h0, digitsVal]
    · simp only [natCharsF, h0, if_false, List.map_append, List.map_cons, List.map_nil]
      rw [digitsVal_append]
      rw [charDigit_digitChar _ (Nat.mod_lt _ (by omega))]
      rw [ih (n / 10) (by omega)]
      omega

theorem digitsVal_natChars (m : Nat) : digitsVal ((natChars m).map charDigit) = m := by
  by_cases h0 : m = 0
  · simp [natChars, h0, digitsVal, charDigit]
  · simp only [natChars, h0, if_false]
    exact digitsVal_natCharsF m m (le_refl m)

theorem natCharsF_ne_nil (fuel n : Nat) (h0 : 0 < n) (h : n ≤ fuel) :
    natCharsF fuel n ≠ [] := by
  cases fuel with
  | zero => omega
  | succ f =>
    simp only [natCharsF, Nat.pos_iff_ne_zero.mp h0, if_false]
    simp

theorem natChars_ne_nil (m : Nat) : natChars m ≠ [] := by
  by_cases h0 : m = 0
  · simp [natChars, h0]
  · simp only [natChars, h0, if_false]
    exact natCharsF_ne_nil m m (by omega) (le_refl m)

theorem scanDigits_of_digits :
    ∀ (ds rest : List Char), (∀ c ∈ ds, isDigitC c = true) → safeRest rest = true →
      scanDigits (ds ++ rest) = (ds.map charDigit, rest) := by
  intro ds
  induction ds with
  | nil =>
    intro rest hd hr
    cases rest with
    | nil => rfl
    | cons c r =>
      simp only [safeRest, Bool.not_eq_true'] at hr
      simp [scanDigits, hr]
  | cons c ds ih =>
    intro rest hd hr
    have hc : isDigitC c = true := hd c (by simp)
    simp only [List.cons_append, scanDigits, hc, if_true, List.append_eq]
    rw [ih rest (fun x hx => hd x (by simp [hx])) hr]
    simp

/-- one whitespace character is skipped (exact-fuel step, so plain rfl). -/
theorem scan_space (rest : List Char) : scan (' ' :: rest) = scan rest := rfl

theorem scan_newline (rest : List Char) : scan ('\n' :: rest) = scan rest := rfl

theorem scan_replicate_space (n : Nat) (rest : List Char) :
    scan (List.replicate n ' ' ++ rest) = scan rest := by
  induction n with
  | zero => rfl
  | succ m ih => simpa [List.replicate_succ] using ih

theorem scan_indentChars (i : Nat) (rest : List Char) :
    scan (indentChars i ++ rest) = scan rest := scan_replicate_space (2 * i) rest

theorem scan_lbrack (rest : List Char) : scan ('[' :: rest) = tokCons .lbrack (scan rest) := rfl

theorem scan_rbrack (rest : List Char) : scan (']' :: rest) = tokCons .rbrack (scan rest) := rfl

theorem scan_lbrace (rest : List Char) :
    scan (obrace :: rest) = tokCons .lbrace (scan rest) := rfl

theorem scan_rbrace (rest : List Char) :
    scan (cbrace :: rest) = tokCons .rbrace (scan rest) := rfl

theorem scan_comma (rest : List Char) : scan (',' :: rest) = tokCons .comma (scan rest) := rfl

theorem scan_colon (rest : List Char) : scan (':' :: rest) = tokCons .colon (scan rest) := rfl

theorem scanStr_plain :
    ∀ (s rest : List Char), plainStr s = true →
      scanStr false (s ++ '"' :: rest) = some (s, rest) := by
  intro s
  induction s with
  | nil => intro rest _; rfl
  | cons c s ih =>
    intro rest hp
    simp only [plainStr, List.all_cons, Bool.and_eq_true] at hp
    obtain ⟨hc, hs⟩ := hp
    simp only [plainChar, Bool.and_eq_true, Bool.not_eq_true', decide_eq_false_iff_not,
      decide_eq_true_eq] at hc
    obtain ⟨⟨hq, hb⟩, hge⟩ := hc
    show scanStr false (c :: (s ++ '"' :: rest)) = some (c :: s, rest)
    rw [show scanStr false (c :: (s ++ '"' :: rest)) =
        (if c = '"' then some ([], s ++ '"' :: rest)
         else if c = '\\' then scanStr true (s ++ '"' :: rest)
         else if c.toNat < 32 then none
         else
           match scanStr false (s ++ '"' :: rest) with
           | none => none
           | some (s2, r) => some (c :: s2, r)) from rfl]
    rw [if_neg hq, if_neg hb, if_neg (show ¬c.toNat < 32 by omega)]
    rw [ih rest hs]

theorem scan_string (s rest : List Char) (hp : plainStr s = true) :
    scan ('"' :: (s ++ '"' :: rest)) = tokCons (.str s) (scan rest) := by
  have h1 : scan ('"' :: (s ++ '"' :: rest)) =
      (match scanStr false (s ++ '"' :: rest) with
       | none => ([], false)
       | some (s2, r) => tokCons (.str s2) (scanF ((s ++ '"' :: rest).length + 1) r)) := rfl
  rw [h1, scanStr_plain s rest hp]
  simp only
  rw [scanF_congr ((s ++ '"' :: rest).length + 1) rest (rest.length + 1) (by simp; omega)
    (by omega)]
  rfl

theorem digit_not_special (c : Char) (h : isDigitC c = true) :
    isWs c = false ∧ c ≠ '[' ∧ c ≠ ']' ∧ c ≠ '\x7b' ∧ c ≠ '\x7d' ∧ c ≠ ',' ∧ c ≠ ':' ∧
      c ≠ '"' ∧ c ≠ '-' := by
  refine ⟨?_, ?_, ?_, ?_, ?_, ?_, ?_, ?_, ?_⟩
  · cases hws : isWs c with
    | false => rfl
    | true =>
      exfalso
      simp only [isWs, Bool.or_eq_true, decide_eq_true_eq] at hws
      rcases hws with ((h1 | h1) | h1) | h1 <;> (subst h1; exact absurd h (by decide))
  all_goals intro heq
  all_goals subst heq
  all_goals exact absurd h (by decide)

theorem scan_digit_start (c : Char) (rest0 : List Char) (h : isDigitC c = true) :
    scan (c :: rest0) =
      tokCons (.num ((digitsVal (charDigit c :: (scanDigits rest0).1) : Nat) : Int))
        (scanF (rest0.length + 1) (scanDigits rest0).2) := by
  obtain ⟨hws, h1, h2, h3, h4, h5, h6, h7, h8⟩ := digit_not_special c h
  show scanF (rest0.length + 1 + 1) (c :: rest0) = _
  simp only [scanF]
  rw [if_neg (by simp [hws]), if_neg h1, if_neg h2, if_neg h3, if_neg h4, if_neg h5,
    if_neg h6, if_neg h7, if_neg h8, if_pos h]

theorem scan_nat (m : Nat) (rest : List Char) (hr : safeRest rest = true) :
    scan (natChars m ++ rest) = tokCons (.num (m : Int)) (scan rest) := by
  obtain ⟨d0, ds, hds⟩ : ∃ d0 ds, natChars m = d0 :: ds := by
    cases hn : natChars m with
    | nil => exact absurd hn (natChars_ne_nil m)
    | cons a b => exact ⟨a, b, rfl⟩
  have hall := natChars_digits m
  rw [hds] at hall ⊢
  have hd0 : isDigitC d0 = true := hall d0 (by simp)
  simp only [List.cons_append]
  rw [scan_digit_start d0 (ds ++ rest) hd0]
  rw [scanDigits_of_digits ds rest (fun x hx => hall x (by simp [hx])) hr]
  have hv : digitsVal (charDigit d0 :: ds.map charDigit) = m := by
    have hx := digitsVal_natChars m
    rw [hds] at hx
    simpa using hx
  simp only [hv]
  rw [scanF_congr ((ds ++ rest).length + 1) rest (rest.length + 1)
    (by simp only [List.length_append]; omega) (by omega)]
  rfl

theorem scan_int (n : Int) (rest : List Char) (hr : safeRest rest = true) :
    scan (intChars n ++ rest) = tokCons (.num n) (scan rest) := by
  by_cases hneg : n < 0
  · simp only [intChars, if_pos hneg, List.cons_append]
    obtain ⟨d0, ds, hds⟩ : ∃ d0 ds, natChars n.natAbs = d0 :: ds := by
      cases hn : natChars n.natAbs with
      | nil => exact absurd hn (natChars_ne_nil _)
      | cons a b => exact ⟨a, b, rfl⟩
    have hall := natChars_digits n.natAbs
    rw [hds] at hall
    have hd0 : isDigitC d0 = true := hall d0 (by simp)
    have h1 : scan ('-' :: (natChars n.natAbs ++ rest)) =
        (match natChars n.natAbs ++ rest with
         | [] => ([], false)
         | d :: rest2 =>
           if isDigitC d = true then
             tokCons (.num (-(digitsVal (charDigit d :: (scanDigits rest2).1) : Int)))
               (scanF ((natChars n.natAbs ++ rest).length + 1) (scanDigits rest2).2)
           else ([], false)) := rfl
    rw [h1, hds]
    simp only [List.cons_append, hd0, if_pos]
    rw [scanDigits_of_digits ds rest (fun x hx => hall x (by simp [hx])) hr]
    have hv : digitsVal (charDigit d0 :: ds.map charDigit) = n.natAbs := by
      have hx := digitsVal_natChars n.natAbs
      rw [hds] at hx
      simpa using hx
    simp only [hv]
    have hn2 : -((n.natAbs : Nat) : Int) = n := by omega
    rw [hn2]
    rw [scanF_congr ((d0 :: (ds ++ rest)).length + 1) rest (rest.length + 1)
      (by simp only [List.length_cons, List.length_append]; omega) (by omega)]
    rfl
  · simp only [intChars, if_neg hneg]
    have h2 : ((n.natAbs : Nat) : Int) = n := by omega
    rw [← h2]
    exact scan_nat n.natAbs rest hr

theorem tokCons_fst (t : Token) (p : List Token × Bool) : (tokCons t p).1 = t :: p.1 := rfl

theorem tokCons_snd (t : Token) (p : List Token × Bool) : (tokCons t p).2 = p.2 := rfl

theorem scan_if_comma (comma : Bool) (rest : List Char) :
    scan ((if comma then [','] else []) ++ rest) =
      ((if comma then [Token.comma] else []) ++ (scan rest).1, (scan rest).2) := by
  cases comma
  · simp
  · simp only [if_true, List.cons_append, List.nil_append, scan_comma]
    rfl

theorem scan_if_newline (newline : Bool) (rest : List Char) :
    scan ((if newline then ['\n'] else []) ++ rest) = scan rest := by
  cases newline
  · simp
  · simp only [if_true, List.cons_append, List.nil_append, scan_newline]

theorem pretty_print_kvpair_rec (t2 p2 : Bool) (k : List Char) (vrec : Enc)
    (hrec : wg_get_encoded_type vrec = .WG_RECORDTYPE) (ind : Nat) (comma newline : Bool) :
    pretty_print_json (.erec .kpair t2 p2 [.estr k, vrec]) ind comma newline =
      (match pretty_print_json (wg_decode_record vrec) ind false true with
       | (0, out1) =>
         (0, (indentChars ind ++ (if comma then [','] else []) ++
           '"' :: k ++ ['"', ':', ' ']) ++ out1)
       | (_, out1) =>
         (-1, (indentChars ind ++ (if comma then [','] else []) ++
           '"' :: k ++ ['"', ':', ' ']) ++ out1)) := by
  simp only [pretty_print_json]
  rw [hrec]
  rfl

mutual

theorem scan_pp_arr (t p : Bool) (fs : List Enc) (b : Bool) (hwf : wfElems b fs = true)
    (ind : Nat) (comma newline : Bool) (rest : List Char) :
    (pretty_print_json (.erec .karr t p fs) ind comma newline).1 = 0 ∧
    scan ((pretty_print_json (.erec .karr t p fs) ind comma newline).2 ++ rest) =
      ((if comma then [Token.comma] else []) ++ elemToks (.erec .karr t p fs) ++
        (scan rest).1,
       (scan rest).2) ∧
    safeRest ((pretty_print_json (.erec .karr t p fs) ind comma newline).2 ++ rest) =
      true := by
  rcases hpa : ppArrFields fs ind 0 with ⟨e1, out⟩
  obtain ⟨he1, hscan, _⟩ := scan_ppArrFields fs b hwf ind 0
    (']' :: ((if newline then ['\n'] else []) ++ rest)) rfl
  rw [hpa] at he1 hscan
  simp only at he1 hscan
  subst he1
  have hout : (pretty_print_json (.erec .karr t p fs) ind comma newline).2 =
      (if comma then [','] else []) ++
        '[' :: (out ++ ']' :: (if newline then ['\n'] else [])) := by
    simp [pretty_print_json, hpa, List.append_assoc]
  refine ⟨by simp [pretty_print_json, hpa], ?_, ?_⟩
  · rw [hout]
    simp only [List.append_assoc, List.cons_append, List.nil_append]
    rw [scan_if_comma, scan_lbrack]
    rw [show (out ++ (']' :: ((if newline then ['\n'] else []) ++ rest))) =
        out ++ ']' :: ((if newline then ['\n'] else []) ++ rest) from rfl] at hscan ⊢
    rw [hscan, scan_rbrack, scan_if_newline]
    simp [tokCons, elemToks, List.append_assoc]
  · rw [hout]
    cases comma <;> rfl
termination_by sizeOf fs + 1
decreasing_by
  all_goals simp_wf

theorem scan_pp_obj (t p : Bool) (fs : List Enc) (b : Bool) (hwf : wfPairs b fs = true)
    (ind : Nat) (comma newline : Bool) (rest : List Char) :
    (pretty_print_json (.erec .kobj t p fs) ind comma newline).1 = 0 ∧
    scan ((pretty_print_json (.erec .kobj t p fs) ind comma newline).2 ++ rest) =
      ((if comma then [Token.comma] else []) ++ elemToks (.erec .kobj t p fs) ++
        (scan rest).1,
       (scan rest).2) ∧
    safeRest ((pretty_print_json (.erec .kobj t p fs) ind comma newline).2 ++ rest) =
      true := by
  rcases hpa : ppObjFields fs ind 0 with ⟨e1, out⟩
  obtain ⟨he1, hscan⟩ := scan_ppObjFields fs b hwf ind 0
    (indentChars ind ++ cbrace :: ((if newline then ['\n'] else []) ++ rest))
  rw [hpa] at he1 hscan
  simp only at he1 hscan
  subst he1
  have hout : (pretty_print_json (.erec .kobj t p fs) ind comma newline).2 =
      (if comma then [','] else []) ++
        obrace :: '\n' ::
          (out ++ (indentChars ind ++ cbrace :: (if newline then ['\n'] else []))) := by
    simp [pretty_print_json, hpa, List.append_assoc, obrace, cbrace]
  refine ⟨by simp [pretty_print_json, hpa], ?_, ?_⟩
  · rw [hout]
    simp only [List.append_assoc, List.cons_append, List.nil_append]
    rw [scan_if_comma, scan_lbrace, scan_newline]
    rw [show (out ++ ((indentChars ind) ++ (cbrace ::
          ((if newline then ['\n'] else []) ++ rest)))) =
        out ++ (indentChars ind ++ cbrace :: ((if newline then ['\n'] else []) ++ rest))
        from rfl] at hscan ⊢
    rw [hscan, scan_indentChars, scan_rbrace, scan_if_newline]
    simp [tokCons, elemToks, List.append_assoc]
  · rw [hout]
    cases comma <;> rfl
termination_by sizeOf fs + 1
decreasing_by
  all_goals simp_wf

theorem scan_pp_kvpair (t2 p2 : Bool) (k : List Char) (v : Enc) (b : Bool)
    (hk : plainStr k = true) (hv : wfElem b v = true) (ind : Nat) (comma newline : Bool)
    (rest : List Char) :
    (pretty_print_json (.erec .kpair t2 p2 [.estr k, v]) ind comma newline).1 = 0 ∧
    scan ((pretty_print_json (.erec .kpair t2 p2 [.estr k, v]) ind comma newline).2 ++
        rest) =
      ((if comma then [Token.comma] else []) ++ .str k :: .colon :: elemToks v ++
        (scan rest).1,
       (scan rest).2) := by
  cases v with
  | eint n =>
    have hlen : (intChars n).length ≤ 79 := by
      simpa [wfElem] using hv
    have htake : (intChars n).take 79 = intChars n := List.take_of_length_le hlen
    constructor
    · rfl
    · have h2 : (pretty_print_json (.erec .kpair t2 p2 [.estr k, .eint n]) ind comma
            newline).2 ++ rest =
          indentChars ind ++ ((if comma then [','] else []) ++
            ('"' :: (k ++ '"' :: (':' :: ' ' ::
              (intChars n ++ '\n' :: rest))))) := by
        simp [pretty_print_json, wg_get_encoded_type, wg_decode_str, wg_snprint_value,
          htake, List.append_assoc]
      rw [h2, scan_indentChars, scan_if_comma, scan_string k _ hk, scan_colon, scan_space,
        scan_int n ('\n' :: rest) rfl, scan_newline]
      simp [tokCons, elemToks, List.append_assoc]
  | estr s =>
    have hps : plainStr s = true := by simpa [wfElem] using hv
    constructor
    · rfl
    · have h2 : (pretty_print_json (.erec .kpair t2 p2 [.estr k, .estr s]) ind comma
            newline).2 ++ rest =
          indentChars ind ++ ((if comma then [','] else []) ++
            ('"' :: (k ++ '"' :: (':' :: ' ' ::
              ('"' :: (s ++ '"' :: ('\n' :: rest))))))) := by
        simp [pretty_print_json, wg_get_encoded_type, wg_decode_str, List.append_assoc]
      rw [h2, scan_indentChars, scan_if_comma, scan_string k _ hk, scan_colon, scan_space,
        scan_string s _ hps, scan_newline]
      simp [tokCons, elemToks, List.append_assoc]
  | edbl q => simp [wfElem] at hv
  | unset => simp [wfElem] at hv
  | erec kind t3 p3 fs =>
    cases kind with
    | kpair => simp [wfElem] at hv
    | karr =>
      have hwfs : wfElems b fs = true := by
        simp only [wfElem, Bool.and_eq_true] at hv
        exact hv.2
      rcases hpp : pretty_print_json (.erec .karr t3 p3 fs) ind false true with ⟨er, outv⟩
      obtain ⟨hs1, hs2, _⟩ := scan_pp_arr t3 p3 fs b hwfs ind false true rest
      rw [hpp] at hs1 hs2
      simp only at hs1 hs2
      subst hs1
      have hred := pretty_print_kvpair_rec t2 p2 k (.erec .karr t3 p3 fs) rfl ind comma
        newline
      rw [show wg_decode_record (Enc.erec .karr t3 p3 fs) = Enc.erec .karr t3 p3 fs from
        rfl, hpp] at hred
      simp only at hred
      constructor
      · rw [hred]
      · have hout : (pretty_print_json
              (.erec .kpair t2 p2 [.estr k, .erec .karr t3 p3 fs]) ind comma newline).2 =
            (indentChars ind ++ (if comma then [','] else []) ++
              '"' :: k ++ ['"', ':', ' ']) ++ outv := by
          rw [hred]
        rw [show (pretty_print_json
              (.erec .kpair t2 p2 [.estr k, .erec .karr t3 p3 fs]) ind comma newline).2 ++
              rest =
            indentChars ind ++ ((if comma then [','] else []) ++
              ('"' :: (k ++ '"' :: (':' :: ' ' :: (outv ++ rest))))) from by
          rw [hout]; simp [List.append_assoc]]
        rw [scan_indentChars, scan_if_comma, scan_string k _ hk, scan_colon,
          scan_space, hs2]
        simp [tokCons, elemToks, List.append_assoc]
    | kobj =>
      have hwfs : wfPairs b fs = true := by
        simp only [wfElem, Bool.and_eq_true] at hv
        exact hv.2
      rcases hpp : pretty_print_json (.erec .kobj t3 p3 fs) ind false true with ⟨er, outv⟩
      obtain ⟨hs1, hs2, _⟩ := scan_pp_obj t3 p3 fs b hwfs ind false true rest
      rw [hpp] at hs1 hs2
      simp only at hs1 hs2
      subst hs1
      have hred := pretty_print_kvpair_rec t2 p2 k (.erec .kobj t3 p3 fs) rfl ind comma
        newline
      rw [show wg_decode_record (Enc.erec .kobj t3 p3 fs) = Enc.erec .kobj t3 p3 fs from
        rfl, hpp] at hred
      simp only at hred
      constructor
      · rw [hred]
      · have hout : (pretty_print_json
              (.erec .kpair t2 p2 [.estr k, .erec .kobj t3 p3 fs]) ind comma newline).2 =
            (indentChars ind ++ (if comma then [','] else []) ++
              '"' :: k ++ ['"', ':', ' ']) ++ outv := by
          rw [hred]
        rw [show (pretty_print_json
              (.erec .kpair t2 p2 [.estr k, .erec .kobj t3 p3 fs]) ind comma newline).2 ++
              rest =
            indentChars ind ++ ((if comma then [','] else []) ++
              ('"' :: (k ++ '"' :: (':' :: ' ' :: (outv ++ rest))))) from by
          rw [hout]; simp [List.append_assoc]]
        rw [scan_indentChars, scan_if_comma, scan_string k _ hk, scan_colon,
          scan_space, hs2]
        simp [tokCons, elemToks, List.append_assoc]
termination_by sizeOf v + 2
decreasing_by
  all_goals simp_wf
  all_goals subst_vars
  all_goals try simp_wf
  all_goals omega

theorem scan_ppArrFields (fs : List Enc) (b : Bool) (hwf : wfElems b fs = true)
    (ind i : Nat) (rest : List Char) (hrest : safeRest rest = true) :
    (ppArrFields fs ind i).1 = 0 ∧
    scan ((ppArrFields fs ind i).2 ++ rest) =
      (elemsToks (i == 0) fs ++ (scan rest).1, (scan rest).2) ∧
    (i ≠ 0 → safeRest ((ppArrFields fs ind i).2 ++ rest) = true) := by
  cases fs with
  | nil =>
    exact ⟨rfl, by simp [ppArrFields, elemsToks], fun _ => by
      simpa [ppArrFields] using hrest⟩
  | cons v fs2 =>
    obtain ⟨hv, hfs2⟩ : wfElem b v = true ∧ wfElems b fs2 = true := by
      simpa [wfElems, Bool.and_eq_true] using hwf
    rcases hta : ppArrFields fs2 ind (i + 1) with ⟨e2, out2⟩
    obtain ⟨ht1, ht2, ht3⟩ := scan_ppArrFields fs2 b hfs2 ind (i + 1) rest hrest
    rw [hta] at ht1 ht2 ht3
    simp only at ht1 ht2 ht3
    subst ht1
    cases v with
    | eint n =>
      have hlen : (intChars n).length ≤ 79 := by
        simpa [wfElem] using hv
      have htake : (intChars n).take 79 = intChars n := List.take_of_length_le hlen
      have hout : (ppArrFields (Enc.eint n :: fs2) ind i).2 =
          (if (i != 0) = true then [','] else []) ++ (intChars n ++ out2) := by
        simp [ppArrFields, wg_get_encoded_type, wg_snprint_value, htake, hta,
          List.append_assoc]
      refine ⟨by simp [ppArrFields, wg_get_encoded_type, hta], ?_, ?_⟩
      · rw [hout]
        simp only [List.append_assoc, List.cons_append, List.nil_append]
        rw [scan_if_comma, scan_int n _ (ht3 (by omega)), ht2]
        cases i <;>
          simp [tokCons, elemsToks, elemToks, List.append_assoc]
      · intro hi
        rw [hout]
        rw [if_pos (by simpa using hi)]
        rfl
    | estr s =>
      have hps : plainStr s = true := by simpa [wfElem] using hv
      have hout : (ppArrFields (Enc.estr s :: fs2) ind i).2 =
          (if (i != 0) = true then [','] else []) ++
            ('"' :: (s ++ '"' :: out2)) := by
        simp [ppArrFields, wg_get_encoded_type, wg_decode_str, hta, List.append_assoc]
      refine ⟨by simp [ppArrFields, wg_get_encoded_type, hta], ?_, ?_⟩
      · rw [hout]
        simp only [List.append_assoc, List.cons_append, List.nil_append]
        rw [scan_if_comma, scan_string s _ hps, ht2]
        cases i <;>
          simp [tokCons, elemsToks, elemToks, List.append_assoc]
      · intro _
        rw [hout]
        cases hi : (i != 0) <;> simp only [hi, if_true, Bool.false_eq_true, if_false,
          List.nil_append, List.cons_append, safeRest] <;> rfl
    | edbl q => simp [wfElem] at hv
    | unset => simp [wfElem] at hv
    | erec kind t3 p3 fs3 =>
      cases kind with
      | kpair => simp [wfElem] at hv
      | karr =>
        have hwfs : wfElems b fs3 = true := by
          simp only [wfElem, Bool.and_eq_true] at hv
          exact hv.2
        rcases hpp : pretty_print_json (.erec .karr t3 p3 fs3) ind (i != 0) false with
          ⟨er, outv⟩
        obtain ⟨hs1, hs2, hs3⟩ := scan_pp_arr t3 p3 fs3 b hwfs ind (i != 0) false
          (out2 ++ rest)
        rw [hpp] at hs1 hs2 hs3
        simp only at hs1 hs2 hs3
        subst hs1
        have hout : (ppArrFields (Enc.erec .karr t3 p3 fs3 :: fs2) ind i).2 =
            outv ++ out2 := by
          simp [ppArrFields, wg_get_encoded_type, wg_decode_record, hpp, hta]
        refine ⟨by simp [ppArrFields, wg_get_encoded_type, wg_decode_record, hpp, hta], ?_,
          ?_⟩
        · rw [hout, List.append_assoc, hs2, ht2]
          cases i <;>
            simp [tokCons, elemsToks, elemToks, List.append_assoc]
        · intro _
          rw [hout, List.append_assoc]
          exact hs3
      | kobj =>
        have hwfs : wfPairs b fs3 = true := by
          simp only [wfElem, Bool.and_eq_true] at hv
          exact hv.2
        rcases hpp : pretty_print_json (.erec .kobj t3 p3 fs3) ind (i != 0) false with
          ⟨er, outv⟩
        obtain ⟨hs1, hs2, hs3⟩ := scan_pp_obj t3 p3 fs3 b hwfs ind (i != 0) false
          (out2 ++ rest)
        rw [hpp] at hs1 hs2 hs3
        simp only at hs1 hs2 hs3
        subst hs1
        have hout : (ppArrFields (Enc.erec .kobj t3 p3 fs3 :: fs2) ind i).2 =
            outv ++ out2 := by
          simp [ppArrFields, wg_get_encoded_type, wg_decode_record, hpp, hta]
        refine ⟨by simp [ppArrFields, wg_get_encoded_type, wg_decode_record, hpp, hta], ?_,
          ?_⟩
        · rw [hout, List.append_assoc, hs2, ht2]
          cases i <;>
            simp [tokCons, elemsToks, elemToks, List.append_assoc]
        · intro _
          rw [hout, List.append_assoc]
          exact hs3
termination_by sizeOf fs
decreasing_by
  all_goals simp_wf
  all_goals subst_vars
  all_goals try simp_wf
  all_goals omega

theorem scan_ppObjFields (fs : List Enc) (b : Bool) (hwf : wfPairs b fs = true)
    (ind i : Nat) (rest : List Char) :
    (ppObjFields fs ind i).1 = 0 ∧
    scan ((ppObjFields fs ind i).2 ++ rest) =
      (pairsToks (i == 0) fs ++ (scan rest).1, (scan rest).2) := by
  cases fs with
  | nil => exact ⟨rfl, by simp [ppObjFields, pairsToks]⟩
  | cons kv fs2 =>
    obtain ⟨t2, p2, k, v, hkv⟩ : ∃ t2 p2 k v,
        kv = Enc.erec .kpair t2 p2 [Enc.estr k, v] := by
      rcases kv with _ | _ | _ | _ | ⟨kind, t2, p2, kfs⟩
      case eint => simp [wfPairs] at hwf
      case edbl => simp [wfPairs] at hwf
      case estr => simp [wfPairs] at hwf
      case unset => simp [wfPairs] at hwf
      cases kind with
      | karr => simp [wfPairs] at hwf
      | kobj => simp [wfPairs] at hwf
      | kpair =>
        rcases kfs with _ | ⟨key, _ | ⟨v, _ | _⟩⟩
        case nil => simp [wfPairs] at hwf
        case cons.nil => simp [wfPairs] at hwf
        case cons.cons.cons => simp [wfPairs] at hwf
        rcases key with _ | _ | ⟨k⟩ | _ | _
        case eint => simp [wfPairs] at hwf
        case edbl => simp [wfPairs] at hwf
        case unset => simp [wfPairs] at hwf
        case erec => simp [wfPairs] at hwf
        exact ⟨t2, p2, k, v, rfl⟩
    subst hkv
    have hparts : ((((t2 = false ∧ p2 = b) ∧ plainStr k = true) ∧ k.length ≤ 79) ∧
        wfElem b v = true) ∧ wfPairs b fs2 = true := by
      simpa [wfPairs, Bool.and_eq_true, Bool.not_eq_true'] using hwf
    obtain ⟨⟨⟨⟨⟨ht2', hp2⟩, hk⟩, hklen⟩, hv⟩, hfs2⟩ := hparts
    rcases hta : ppObjFields fs2 ind (i + 1) with ⟨e2, out2⟩
    obtain ⟨hr1, hr2⟩ := scan_ppObjFields fs2 b hfs2 ind (i + 1) rest
    rw [hta] at hr1 hr2
    simp only at hr1 hr2
    subst hr1
    rcases hpp : pretty_print_json (.erec .kpair t2 p2 [.estr k, v]) (ind + 1) (i != 0)
        true with ⟨er, outp⟩
    obtain ⟨hs1, hs2⟩ := scan_pp_kvpair t2 p2 k v b hk hv (ind + 1) (i != 0) true
      (out2 ++ rest)
    rw [hpp] at hs1 hs2
    simp only at hs1 hs2
    subst hs1
    have hout : (ppObjFields (Enc.erec .kpair t2 p2 [.estr k, v] :: fs2) ind i).2 =
        outp ++ out2 := by
      simp [ppObjFields, wg_get_encoded_type, wg_decode_record, hpp, hta]
    refine ⟨by simp [ppObjFields, wg_get_encoded_type, wg_decode_record, hpp, hta], ?_⟩
    rw [hout, List.append_assoc, hs2, hr2]
    cases i <;>
      simp [tokCons, pairsToks, List.append_assoc]
termination_by sizeOf fs
decreasing_by
  all_goals simp_wf
  all_goals subst_vars
  all_goals try simp_wf
  all_goals omega

end

/-! ### The grammar automaton accepts a printed document's token stream -/

theorem pdaRun_cons (s : PS) (stk : List PS) (t : Token) (ts : List Token)
    (s2 : PS) (stk2 : List PS) (evs : List Event)
    (h : pdaStep s stk t = some (s2, stk2, evs)) :
    pdaRun s stk (t :: ts) =
      (evs ++ (pdaRun s2 stk2 ts).1, (pdaRun s2 stk2 ts).2) := by
  rcases h2 : pdaRun s2 stk2 ts with ⟨evs2, ok⟩
  simp [pdaRun, h, h2]

mutual

theorem pda_elem (v : Enc) (b : Bool) (hwf : wfElem b v = true) (s : PS)
    (stk : List PS) (ts : List Token) (hs : isValPS s = true)
    (hd : stk.length + edepth v ≤ MAX_DEPTH - 1) :
    pdaRun s stk (elemToks v ++ ts) =
      (elemEvents v ++ (pdaRun (afterPS s) stk ts).1, (pdaRun (afterPS s) stk ts).2) := by
  cases v with
  | eint n =>
    rw [show elemToks (.eint n) ++ ts = Token.num n :: ts from rfl]
    rw [pdaRun_cons s stk (Token.num n) ts (afterPS s) stk [Event.int n]
      (by simp [pdaStep, hs])]
    simp [elemEvents]
  | estr str =>
    rw [show elemToks (.estr str) ++ ts = Token.str str :: ts from rfl]
    rw [pdaRun_cons s stk (Token.str str) ts (afterPS s) stk [Event.str str]
      (by simp [pdaStep, hs])]
    simp [elemEvents]
  | edbl q => simp [wfElem] at hwf
  | unset => simp [wfElem] at hwf
  | erec kind t p fs =>
    cases kind with
    | kpair => simp [wfElem] at hwf
    | karr =>
      have hwfs : wfElems b fs = true := by
        simp only [wfElem, Bool.and_eq_true] at hwf
        exact hwf.2
      have hdl : stk.length + (1 + edepthList fs) ≤ MAX_DEPTH - 1 := by
        simpa [edepth] using hd
      rw [show elemToks (.erec .karr t p fs) ++ ts =
          Token.lbrack :: (elemsToks true fs ++ Token.rbrack :: ts) from by
        simp [elemToks, List.append_assoc]]
      rw [pdaRun_cons s stk Token.lbrack _ PS.psArrFirst (afterPS s :: stk)
        [Event.arrBegin] (by
          simp only [pdaStep, hs, if_true, if_pos]
          rw [if_pos (by omega)])]
      have hrec := pda_elems true fs b hwfs (afterPS s) stk ts (by omega)
      rw [if_pos rfl] at hrec
      rw [hrec]
      simp [elemEvents, List.append_assoc]
    | kobj =>
      have hwfs : wfPairs b fs = true := by
        simp only [wfElem, Bool.and_eq_true] at hwf
        exact hwf.2
      have hdl : stk.length + (1 + edepthList fs) ≤ MAX_DEPTH - 1 := by
        simpa [edepth] using hd
      rw [show elemToks (.erec .kobj t p fs) ++ ts =
          Token.lbrace :: (pairsToks true fs ++ Token.rbrace :: ts) from by
        simp [elemToks, List.append_assoc]]
      rw [pdaRun_cons s stk Token.lbrace _ PS.psKeyFirst (afterPS s :: stk)
        [Event.objBegin] (by
          simp only [pdaStep, hs, if_true, if_pos]
          rw [if_pos (by omega)])]
      have hrec := pda_pairs true fs b hwfs (afterPS s) stk ts (by omega)
      rw [if_pos rfl] at hrec
      rw [hrec]
      simp [elemEvents, List.append_assoc]

theorem pda_elems (first : Bool) (fs : List Enc) (b : Bool) (hwf : wfElems b fs = true)
    (r : PS) (rs : List PS) (ts : List Token)
    (hd : rs.length + 1 + edepthList fs ≤ MAX_DEPTH - 1) :
    pdaRun (if first then PS.psArrFirst else PS.psArrAfter) (r :: rs)
        (elemsToks first fs ++ Token.rbrack :: ts) =
      (elemsEvents fs ++ Event.arrEnd :: (pdaRun r rs ts).1, (pdaRun r rs ts).2) := by
  cases fs with
  | nil =>
    cases first with
    | true =>
      rw [if_pos rfl,
        show elemsToks true ([] : List Enc) ++ Token.rbrack :: ts =
          Token.rbrack :: ts from rfl,
        pdaRun_cons PS.psArrFirst (r :: rs) Token.rbrack ts r rs [Event.arrEnd] rfl]
      simp [elemsEvents]
    | false =>
      rw [if_neg (by simp),
        show elemsToks false ([] : List Enc) ++ Token.rbrack :: ts =
          Token.rbrack :: ts from rfl,
        pdaRun_cons PS.psArrAfter (r :: rs) Token.rbrack ts r rs [Event.arrEnd] rfl]
      simp [elemsEvents]
  | cons v fs2 =>
    obtain ⟨hv, hfs2⟩ : wfElem b v = true ∧ wfElems b fs2 = true := by
      simpa [wfElems, Bool.and_eq_true] using hwf
    have hmax1 : edepth v ≤ edepthList (v :: fs2) := by
      simp [edepthList, Nat.le_max_left]
    have hmax2 : edepthList fs2 ≤ edepthList (v :: fs2) := by
      simp [edepthList, Nat.le_max_right]
    have hrec := pda_elems false fs2 b hfs2 r rs ts (by omega)
    rw [if_neg (by simp)] at hrec
    cases first with
    | true =>
      rw [if_pos rfl,
        show elemsToks true (v :: fs2) ++ Token.rbrack :: ts =
          elemToks v ++ (elemsToks false fs2 ++ Token.rbrack :: ts) from by
        simp [elemsToks, List.append_assoc]]
      rw [pda_elem v b hv PS.psArrFirst (r :: rs) _ rfl (by
        simp only [List.length_cons]
        omega)]
      rw [show afterPS PS.psArrFirst = PS.psArrAfter from rfl, hrec]
      simp [elemsEvents, List.append_assoc]
    | false =>
      rw [if_neg (by simp),
        show elemsToks false (v :: fs2) ++ Token.rbrack :: ts =
          Token.comma :: (elemToks v ++ (elemsToks false fs2 ++ Token.rbrack :: ts))
          from by simp [elemsToks, List.append_assoc]]
      rw [pdaRun_cons PS.psArrAfter (r :: rs) Token.comma _ PS.psArrNext (r :: rs) []
        rfl]
      rw [pda_elem v b hv PS.psArrNext (r :: rs) _ rfl (by
        simp only [List.length_cons]
        omega)]
      rw [show afterPS PS.psArrNext = PS.psArrAfter from rfl, hrec]
      simp [elemsEvents, List.append_assoc]

theorem pda_pairs (first : Bool) (fs : List Enc) (b : Bool) (hwf : wfPairs b fs = true)
    (r : PS) (rs : List PS) (ts : List Token)
    (hd : rs.length + 1 + edepthList fs ≤ MAX_DEPTH - 1) :
    pdaRun (if first then PS.psKeyFirst else PS.psObjAfter) (r :: rs)
        (pairsToks first fs ++ Token.rbrace :: ts) =
      (pairsEvents fs ++ Event.objEnd :: (pdaRun r rs ts).1, (pdaRun r rs ts).2) := by
  cases fs with
  | nil =>
    cases first with
    | true =>
      rw [if_pos rfl,
        show pairsToks true ([] : List Enc) ++ Token.rbrace :: ts =
          Token.rbrace :: ts from rfl,
        pdaRun_cons PS.psKeyFirst (r :: rs) Token.rbrace ts r rs [Event.objEnd] rfl]
      simp [pairsEvents]
    | false =>
      rw [if_neg (by simp),
        show pairsToks false ([] : List Enc) ++ Token.rbrace :: ts =
          Token.rbrace :: ts from rfl,
        pdaRun_cons PS.psObjAfter (r :: rs) Token.rbrace ts r rs [Event.objEnd] rfl]
      simp [pairsEvents]
  | cons kv fs2 =>
    obtain ⟨t2, p2, k, v, hkv⟩ : ∃ t2 p2 k v,
        kv = Enc.erec .kpair t2 p2 [Enc.estr k, v] := by
      rcases kv with _ | _ | _ | _ | ⟨kind, t2, p2, kfs⟩
      case eint => simp [wfPairs] at hwf
      case edbl => simp [wfPairs] at hwf
      case estr => simp [wfPairs] at hwf
      case unset => simp [wfPairs] at hwf
      cases kind with
      | karr => simp [wfPairs] at hwf
      | kobj => simp [wfPairs] at hwf
      | kpair =>
        rcases kfs with _ | ⟨key, _ | ⟨v, _ | _⟩⟩
        case nil => simp [wfPairs] at hwf
        case cons.nil => simp [wfPairs] at hwf
        case cons.cons.cons => simp [wfPairs] at hwf
        rcases key with _ | _ | ⟨k⟩ | _ | _
        case eint => simp [wfPairs] at hwf
        case edbl => simp [wfPairs] at hwf
        case unset => simp [wfPairs] at hwf
        case erec => simp [wfPairs] at hwf
        exact ⟨t2, p2, k, v, rfl⟩
    subst hkv
    have hparts : ((((t2 = false ∧ p2 = b) ∧ plainStr k = true) ∧ k.length ≤ 79) ∧
        wfElem b v = true) ∧ wfPairs b fs2 = true := by
      simpa [wfPairs, Bool.and_eq_true, Bool.not_eq_true'] using hwf
    obtain ⟨⟨⟨⟨⟨ht2', hp2⟩, hk⟩, hklen⟩, hv⟩, hfs2⟩ := hparts
    have hmax1 : edepth v ≤
        edepthList (Enc.erec .kpair t2 p2 [Enc.estr k, v] :: fs2) := by
      simp [edepthList, edepth, Nat.le_max_left]
    have hmax2 : edepthList fs2 ≤
        edepthList (Enc.erec .kpair t2 p2 [Enc.estr k, v] :: fs2) := by
      simp [edepthList, Nat.le_max_right]
    have hrec := pda_pairs false fs2 b hfs2 r rs ts (by omega)
    rw [if_neg (by simp)] at hrec
    cases first with
    | true =>
      rw [if_pos rfl,
        show pairsToks true (Enc.erec .kpair t2 p2 [Enc.estr k, v] :: fs2) ++
            Token.rbrace :: ts =
          Token.str k :: Token.colon ::
            (elemToks v ++ (pairsToks false fs2 ++ Token.rbrace :: ts)) from by
        simp [pairsToks, List.append_assoc]]
      rw [pdaRun_cons PS.psKeyFirst (r :: rs) (Token.str k) _ PS.psColon (r :: rs)
        [Event.key k] rfl]
      rw [pdaRun_cons PS.psColon (r :: rs) Token.colon _ PS.psObjVal (r :: rs) [] rfl]
      rw [pda_elem v b hv PS.psObjVal (r :: rs) _ rfl (by
        simp only [List.length_cons]
        omega)]
      rw [show afterPS PS.psObjVal = PS.psObjAfter from rfl, hrec]
      simp [pairsEvents, List.append_assoc]
    | false =>
      rw [if_neg (by simp),
        show pairsToks false (Enc.erec .kpair t2 p2 [Enc.estr k, v] :: fs2) ++
            Token.rbrace :: ts =
          Token.comma :: Token.str k :: Token.colon ::
            (elemToks v ++ (pairsToks false fs2 ++ Token.rbrace :: ts)) from by
        simp [pairsToks, List.append_assoc]]
      rw [pdaRun_cons PS.psObjAfter (r :: rs) Token.comma _ PS.psKeyNext (r :: rs) []
        rfl]
      rw [pdaRun_cons PS.psKeyNext (r :: rs) (Token.str k) _ PS.psColon (r :: rs)
        [Event.key k] rfl]
      rw [pdaRun_cons PS.psColon (r :: rs) Token.colon _ PS.psObjVal (r :: rs) [] rfl]
      rw [pda_elem v b hv PS.psObjVal (r :: rs) _ rfl (by
        simp only [List.length_cons]
        omega)]
      rw [show afterPS PS.psObjVal = PS.psObjAfter from rfl, hrec]
      simp [pairsEvents, List.append_assoc]

end

/-! ### The callback rebuilds the document from a printed event stream -/

theorem runEvents_cons_true (o : Oracle) (ctx ctx2 : parser_context) (ev : Event)
    (evs : List Event) (h : parse_json_cb o ctx ev = (true, ctx2)) :
    runEvents o ctx (ev :: evs) = runEvents o ctx2 evs := by
  simp [runEvents, h]

mutual

theorem runB_elem (v : Enc) (b : Bool) (hwf : wfElem b v = true) (ft : stack_entry_t)
    (el : List Enc) (lk : List Char) (rest : List stack_entry) (doc : Option Enc)
    (c : Nat) (evs : List Event) (hd : rest.length + 1 + edepth v ≤ MAX_DEPTH) :
    runEvents nofail ⟨⟨ft, el, lk⟩ :: rest, b, doc, c⟩ (elemEvents v ++ evs) =
      runEvents nofail
        ⟨⟨ft, el ++ [match ft with
            | .ARRAY => v
            | .OBJECT => .erec .kpair false b [.estr lk, v]], lk⟩ :: rest,
          b, doc, c + elemTicks ft v⟩ evs := by
  cases v with
  | eint n =>
    cases ft <;>
      simp [elemEvents, elemTicks, wrapT, runEvents, parse_json_cb, wg_encode_int,
        nofail, add_literal, add_elem, wg_encode_str, wg_create_kvpair,
        wg_encode_record, Nat.add_assoc]
  | estr str =>
    cases ft <;>
      simp [elemEvents, elemTicks, wrapT, runEvents, parse_json_cb, nofail,
        add_literal, add_elem, wg_encode_str, wg_create_kvpair, wg_encode_record,
        Nat.add_assoc]
  | edbl q => simp [wfElem] at hwf
  | unset => simp [wfElem] at hwf
  | erec kind t p fs =>
    cases kind with
    | kpair => simp [wfElem] at hwf
    | karr =>
      have hparts : (t = false ∧ p = b) ∧ wfElems b fs = true := by
        simpa [wfElem, Bool.and_eq_true, Bool.not_eq_true'] using hwf
      obtain ⟨⟨ht', hp'⟩, hwfs⟩ := hparts
      subst ht'
      have hp2 : b = p := hp'.symm
      subst hp2
      have hdl : rest.length + 1 + (1 + edepthList fs) ≤ MAX_DEPTH := by
        simpa [edepth] using hd
      rw [show elemEvents (.erec .karr false b fs) ++ evs =
          Event.arrBegin :: (elemsEvents fs ++ (Event.arrEnd :: evs)) from by
        simp [elemEvents, List.append_assoc]]
      rw [runEvents_cons_true nofail _
        ⟨⟨.ARRAY, [], []⟩ :: ⟨ft, el, lk⟩ :: rest, b, doc, c⟩ _ _ (by
          simp only [parse_json_cb, push, List.length_cons]
          rw [if_neg (by omega)])]
      rw [runB_elems fs b hwfs [] [] (⟨ft, el, lk⟩ :: rest) doc c
        (Event.arrEnd :: evs) (by simp only [List.length_cons]; omega)]
      rw [runEvents_cons_true nofail _
        ⟨⟨ft, el ++ [match ft with
            | .ARRAY => Enc.erec .karr false b fs
            | .OBJECT => .erec .kpair false b [.estr lk, Enc.erec .karr false b fs]],
          lk⟩ :: rest, b, doc,
          c + elemsTicks fs + 1 + fs.length + wrapT ft⟩ _ _ (by
          simp only [parse_json_cb]
          rw [pop_nofail_inner ⟨.ARRAY, [] ++ fs, []⟩ ⟨ft, el, lk⟩ rest b doc
            (c + elemsTicks fs)]
          cases ft <;>
            simp [add_literal, add_elem, wg_encode_str, wg_create_kvpair,
              wg_encode_record, nofail, wrapT, Nat.add_assoc])]
      have hc : c + elemsTicks fs + 1 + fs.length + wrapT ft =
          c + elemTicks ft (Enc.erec .karr false b fs) := by
        simp [elemTicks]
        omega
      rw [hc]
    | kobj =>
      have hparts : (t = false ∧ p = b) ∧ wfPairs b fs = true := by
        simpa [wfElem, Bool.and_eq_true, Bool.not_eq_true'] using hwf
      obtain ⟨⟨ht', hp'⟩, hwfs⟩ := hparts
      subst ht'
      have hp2 : b = p := hp'.symm
      subst hp2
      have hdl : rest.length + 1 + (1 + edepthList fs) ≤ MAX_DEPTH := by
        simpa [edepth] using hd
      rw [show elemEvents (.erec .kobj false b fs) ++ evs =
          Event.objBegin :: (pairsEvents fs ++ (Event.objEnd :: evs)) from by
        simp [elemEvents, List.append_assoc]]
      rw [runEvents_cons_true nofail _
        ⟨⟨.OBJECT, [], []⟩ :: ⟨ft, el, lk⟩ :: rest, b, doc, c⟩ _ _ (by
          simp only [parse_json_cb, push, List.length_cons]
          rw [if_neg (by omega)])]
      rw [runB_pairs fs b hwfs [] [] (⟨ft, el, lk⟩ :: rest) doc c
        (Event.objEnd :: evs) (by simp only [List.length_cons]; omega)]
      rw [runEvents_cons_true nofail _
        ⟨⟨ft, el ++ [match ft with
            | .ARRAY => Enc.erec .kobj false b fs
            | .OBJECT => .erec .kpair false b [.estr lk, Enc.erec .kobj false b fs]],
          lk⟩ :: rest, b, doc,
          c + pairsTicks fs + 1 + fs.length + wrapT ft⟩ _ _ (by
          simp only [parse_json_cb]
          rw [pop_nofail_inner ⟨.OBJECT, [] ++ fs, lastKeyAfter [] fs⟩ ⟨ft, el, lk⟩
            rest b doc (c + pairsTicks fs)]
          cases ft <;>
            simp [add_literal, add_elem, wg_encode_str, wg_create_kvpair,
              wg_encode_record, nofail, wrapT, Nat.add_assoc])]
      have hc : c + pairsTicks fs + 1 + fs.length + wrapT ft =
          c + elemTicks ft (Enc.erec .kobj false b fs) := by
        simp [elemTicks]
        omega
      rw [hc]

theorem runB_elems (fs : List Enc) (b : Bool) (hwf : wfElems b fs = true)
    (el : List Enc) (lk : List Char) (rest : List stack_entry) (doc : Option Enc)
    (c : Nat) (evs : List Event)
    (hd : rest.length + 1 + edepthList fs ≤ MAX_DEPTH) :
    runEvents nofail ⟨⟨.ARRAY, el, lk⟩ :: rest, b, doc, c⟩ (elemsEvents fs ++ evs) =
      runEvents nofail ⟨⟨.ARRAY, el ++ fs, lk⟩ :: rest, b, doc,
        c + elemsTicks fs⟩ evs := by
  cases fs with
  | nil => simp [elemsEvents, elemsTicks]
  | cons v fs2 =>
    obtain ⟨hv, hfs2⟩ : wfElem b v = true ∧ wfElems b fs2 = true := by
      simpa [wfElems, Bool.and_eq_true] using hwf
    have hmax1 : edepth v ≤ edepthList (v :: fs2) := by
      simp [edepthList, Nat.le_max_left]
    have hmax2 : edepthList fs2 ≤ edepthList (v :: fs2) := by
      simp [edepthList, Nat.le_max_right]
    rw [show elemsEvents (v :: fs2) ++ evs =
        elemEvents v ++ (elemsEvents fs2 ++ evs) from by
      simp [elemsEvents, List.append_assoc]]
    rw [runB_elem v b hv .ARRAY el lk rest doc c _ (by omega)]
    rw [show (el ++ [match stack_entry_t.ARRAY with
        | .ARRAY => v
        | .OBJECT => Enc.erec .kpair false b [.estr lk, v]]) = el ++ [v] from rfl]
    rw [runB_elems fs2 b hfs2 (el ++ [v]) lk rest doc (c + elemTicks .ARRAY v) evs
      (by omega)]
    simp [elemsTicks, List.append_assoc, Nat.add_assoc]

theorem runB_pairs (fs : List Enc) (b : Bool) (hwf : wfPairs b fs = true)
    (el : List Enc) (lk : List Char) (rest : List stack_entry) (doc : Option Enc)
    (c : Nat) (evs : List Event)
    (hd : rest.length + 1 + edepthList fs ≤ MAX_DEPTH) :
    runEvents nofail ⟨⟨.OBJECT, el, lk⟩ :: rest, b, doc, c⟩ (pairsEvents fs ++ evs) =
      runEvents nofail ⟨⟨.OBJECT, el ++ fs, lastKeyAfter lk fs⟩ :: rest, b, doc,
        c + pairsTicks fs⟩ evs := by
  cases fs with
  | nil => simp [pairsEvents, pairsTicks, lastKeyAfter]
  | cons kv fs2 =>
    obtain ⟨t2, p2, k, v, hkv⟩ : ∃ t2 p2 k v,
        kv = Enc.erec .kpair t2 p2 [Enc.estr k, v] := by
      rcases kv with _ | _ | _ | _ | ⟨kind, t2, p2, kfs⟩
      case eint => simp [wfPairs] at hwf
      case edbl => simp [wfPairs] at hwf
      case estr => simp [wfPairs] at hwf
      case unset => simp [wfPairs] at hwf
      cases kind with
      | karr => simp [wfPairs] at hwf
      | kobj => simp [wfPairs] at hwf
      | kpair =>
        rcases kfs with _ | ⟨key, _ | ⟨v, _ | _⟩⟩
        case nil => simp [wfPairs] at hwf
        case cons.nil => simp [wfPairs] at hwf
        case cons.cons.cons => simp [wfPairs] at hwf
        rcases key with _ | _ | ⟨k⟩ | _ | _
        case eint => simp [wfPairs] at hwf
        case edbl => simp [wfPairs] at hwf
        case unset => simp [wfPairs] at hwf
        case erec => simp [wfPairs] at hwf
        exact ⟨t2, p2, k, v, rfl⟩
    subst hkv
    have hparts : ((((t2 = false ∧ p2 = b) ∧ plainStr k = true) ∧ k.length ≤ 79) ∧
        wfElem b v = true) ∧ wfPairs b fs2 = true := by
      simpa [wfPairs, Bool.and_eq_true, Bool.not_eq_true'] using hwf
    obtain ⟨⟨⟨⟨⟨ht2', hp2⟩, hk⟩, hklen⟩, hv⟩, hfs2⟩ := hparts
    subst ht2'
    have hp3 : b = p2 := hp2.symm
    subst hp3
    have htake : k.take 79 = k := List.take_of_length_le hklen
    have hmax1 : edepth v ≤
        edepthList (Enc.erec .kpair false b [Enc.estr k, v] :: fs2) := by
      simp [edepthList, edepth, Nat.le_max_left]
    have hmax2 : edepthList fs2 ≤
        edepthList (Enc.erec .kpair false b [Enc.estr k, v] :: fs2) := by
      simp [edepthList, Nat.le_max_right]
    rw [show pairsEvents (Enc.erec .kpair false b [Enc.estr k, v] :: fs2) ++ evs =
        Event.key k :: (elemEvents v ++ (pairsEvents fs2 ++ evs)) from by
      simp [pairsEvents, List.append_assoc]]
    rw [runEvents_cons_true nofail _ ⟨⟨.OBJECT, el, k⟩ :: rest, b, doc, c⟩ _ _ (by
      simp [parse_json_cb, add_key, htake])]
    rw [runB_elem v b hv .OBJECT el k rest doc c _ (by omega)]
    rw [show (el ++ [match stack_entry_t.OBJECT with
        | .ARRAY => v
        | .OBJECT => Enc.erec .kpair false b [.estr k, v]]) =
      el ++ [Enc.erec .kpair false b [Enc.estr k, v]] from rfl]
    rw [runB_pairs fs2 b hfs2 (el ++ [Enc.erec .kpair false b [Enc.estr k, v]]) k
      rest doc (c + elemTicks .OBJECT v) evs (by omega)]
    rw [show lastKeyAfter lk (Enc.erec .kpair false b [Enc.estr k, v] :: fs2) =
        lastKeyAfter (k.take 79) fs2 from rfl, htake]
    simp [pairsTicks, elemTicks, List.append_assoc, Nat.add_assoc]

end

theorem runB_doc (d : Enc) (b : Bool) (hwf : wfDoc b d = true) (c : Nat)
    (hd : edepth d ≤ MAX_DEPTH - 1) :
    runEvents nofail ⟨[], b, none, c⟩ (elemEvents d) =
      (true, ⟨[], b, some d, c + elemTicks .ARRAY d⟩) := by
  cases d with
  | eint n => simp [wfDoc] at hwf
  | edbl q => simp [wfDoc] at hwf
  | estr str => simp [wfDoc] at hwf
  | unset => simp [wfDoc] at hwf
  | erec kind t p fs =>
    cases kind with
    | kpair => simp [wfDoc] at hwf
    | karr =>
      cases t with
      | false => simp [wfDoc] at hwf
      | true =>
        have hparts : p = b ∧ wfElems b fs = true := by
          simpa [wfDoc, Bool.and_eq_true] using hwf
        obtain ⟨hp', hwfs⟩ := hparts
        have hp2 : b = p := hp'.symm
        subst hp2
        have hdl : 1 + edepthList fs ≤ MAX_DEPTH - 1 := by
          simpa [edepth] using hd
        rw [show elemEvents (.erec .karr true b fs) =
            Event.arrBegin :: (elemsEvents fs ++ [Event.arrEnd]) from by
          simp [elemEvents]]
        rw [runEvents_cons_true nofail _ ⟨[⟨.ARRAY, [], []⟩], b, none, c⟩ _ _ (by
          simp only [parse_json_cb, push]
          rw [if_neg (by decide)])]
        rw [runB_elems fs b hwfs [] [] [] none c [Event.arrEnd] (by
          simp only [List.length_nil]
          omega)]
        rw [show ([] : List Enc) ++ fs = fs from by simp]
        rw [runEvents_cons_true nofail _
          ⟨[], b, some (.erec .karr true b fs), c + elemsTicks fs + 1 + fs.length⟩
          _ _ (by
            simp only [parse_json_cb]
            rw [pop_nofail_toplevel ⟨.ARRAY, fs, []⟩ b none (c + elemsTicks fs)])]
        simp [runEvents, elemTicks, wrapT, Nat.add_assoc]
    | kobj =>
      cases t with
      | false => simp [wfDoc] at hwf
      | true =>
        have hparts : p = b ∧ wfPairs b fs = true := by
          simpa [wfDoc, Bool.and_eq_true] using hwf
        obtain ⟨hp', hwfs⟩ := hparts
        have hp2 : b = p := hp'.symm
        subst hp2
        have hdl : 1 + edepthList fs ≤ MAX_DEPTH - 1 := by
          simpa [edepth] using hd
        rw [show elemEvents (.erec .kobj true b fs) =
            Event.objBegin :: (pairsEvents fs ++ [Event.objEnd]) from by
          simp [elemEvents]]
        rw [runEvents_cons_true nofail _ ⟨[⟨.OBJECT, [], []⟩], b, none, c⟩ _ _ (by
          simp only [parse_json_cb, push]
          rw [if_neg (by decide)])]
        rw [runB_pairs fs b hwfs [] [] [] none c [Event.objEnd] (by
          simp only [List.length_nil]
          omega)]
        rw [show ([] : List Enc) ++ fs = fs from by simp]
        rw [runEvents_cons_true nofail _
          ⟨[], b, some (.erec .kobj true b fs), c + pairsTicks fs + 1 + fs.length⟩
          _ _ (by
            simp only [parse_json_cb]
            rw [pop_nofail_toplevel ⟨.OBJECT, fs, lastKeyAfter [] fs⟩ b none
              (c + pairsTicks fs)])]
        simp [runEvents, elemTicks, wrapT, Nat.add_assoc]

theorem pda_doc (d : Enc) (b : Bool) (hwf : wfDoc b d = true)
    (hd : edepth d ≤ MAX_DEPTH - 1) :
    pdaRun .psStart [] (elemToks d) = (elemEvents d, true) := by
  cases d with
  | eint n => simp [wfDoc] at hwf
  | edbl q => simp [wfDoc] at hwf
  | estr str => simp [wfDoc] at hwf
  | unset => simp [wfDoc] at hwf
  | erec kind t p fs =>
    cases kind with
    | kpair => simp [wfDoc] at hwf
    | karr =>
      cases t with
      | false => simp [wfDoc] at hwf
      | true =>
        have hwfs : wfElems b fs = true := by
          have h2w : p = b ∧ wfElems b fs = true := by
            simpa [wfDoc, Bool.and_eq_true] using hwf
          exact h2w.2
        have hdl : 1 + edepthList fs ≤ MAX_DEPTH - 1 := by
          simpa [edepth] using hd
        rw [show elemToks (.erec .karr true p fs) =
            Token.lbrack :: (elemsToks true fs ++ Token.rbrack :: ([] : List Token))
            from by simp [elemToks]]
        rw [pdaRun_cons .psStart [] Token.lbrack _ .psArrFirst [PS.psDone]
          [Event.arrBegin] rfl]
        have hrec := pda_elems true fs b hwfs PS.psDone [] [] (by
          simp only [List.length_nil]
          omega)
        rw [if_pos rfl] at hrec
        rw [hrec]
        simp [elemEvents, pdaRun]
    | kobj =>
      cases t with
      | false => simp [wfDoc] at hwf
      | true =>
        have hwfs : wfPairs b fs = true := by
          have h2w : p = b ∧ wfPairs b fs = true := by
            simpa [wfDoc, Bool.and_eq_true] using hwf
          exact h2w.2
        have hdl : 1 + edepthList fs ≤ MAX_DEPTH - 1 := by
          simpa [edepth] using hd
        rw [show elemToks (.erec .kobj true p fs) =
            Token.lbrace :: (pairsToks true fs ++ Token.rbrace :: ([] : List Token))
            from by simp [elemToks]]
        rw [pdaRun_cons .psStart [] Token.lbrace _ .psKeyFirst [PS.psDone]
          [Event.objBegin] rfl]
        have hrec := pda_pairs true fs b hwfs PS.psDone [] [] (by
          simp only [List.length_nil]
          omega)
        rw [if_pos rfl] at hrec
        rw [hrec]
        simp [elemEvents, pdaRun]

theorem tokenize_print (d : Enc) (b : Bool) (hwf : wfDoc b d = true)
    (hd : edepth d ≤ MAX_DEPTH - 1) :
    tokenize (wg_print_json_document d) = (elemEvents d, true) := by
  have hscannil : scan ([] : List Char) = ([], true) := rfl
  cases d with
  | eint n => simp [wfDoc] at hwf
  | edbl q => simp [wfDoc] at hwf
  | estr str => simp [wfDoc] at hwf
  | unset => simp [wfDoc] at hwf
  | erec kind t p fs =>
    cases kind with
    | kpair => simp [wfDoc] at hwf
    | karr =>
      cases t with
      | false => simp [wfDoc] at hwf
      | true =>
        have hwfs : wfElems b fs = true := by
          have h2w : p = b ∧ wfElems b fs = true := by
            simpa [wfDoc, Bool.and_eq_true] using hwf
          exact h2w.2
        obtain ⟨h1, h2, _⟩ := scan_pp_arr true p fs b hwfs 0 false true []
        rw [List.append_nil, hscannil] at h2
        simp at h2
        rw [show wg_print_json_document (Enc.erec .karr true p fs) =
            (pretty_print_json (Enc.erec .karr true p fs) 0 false true).2 from by
          simp [wg_print_json_document, is_schema_document]]
        rw [show tokenize (pretty_print_json (Enc.erec .karr true p fs) 0 false
            true).2 =
            (match scan (pretty_print_json (Enc.erec .karr true p fs) 0 false
                true).2 with
             | (toks, sOk) =>
               match pdaRun .psStart [] toks with
               | (evs, pOk) => (evs, sOk && pOk)) from rfl]
        rw [h2]
        show (match pdaRun .psStart [] (elemToks (Enc.erec .karr true p fs)) with
              | (evs, pOk) => (evs, true && pOk)) =
          (elemEvents (Enc.erec .karr true p fs), true)
        rw [pda_doc (Enc.erec .karr true p fs) b hwf hd]
        rfl
    | kobj =>
      cases t with
      | false => simp [wfDoc] at hwf
      | true =>
        have hwfs : wfPairs b fs = true := by
          have h2w : p = b ∧ wfPairs b fs = true := by
            simpa [wfDoc, Bool.and_eq_true] using hwf
          exact h2w.2
        obtain ⟨h1, h2, _⟩ := scan_pp_obj true p fs b hwfs 0 false true []
        rw [List.append_nil, hscannil] at h2
        simp at h2
        rw [show wg_print_json_document (Enc.erec .kobj true p fs) =
            (pretty_print_json (Enc.erec .kobj true p fs) 0 false true).2 from by
          simp [wg_print_json_document, is_schema_document]]
        rw [show tokenize (pretty_print_json (Enc.erec .kobj true p fs) 0 false
            true).2 =
            (match scan (pretty_print_json (Enc.erec .kobj true p fs) 0 false
                true).2 with
             | (toks, sOk) =>
               match pdaRun .psStart [] toks with
               | (evs, pOk) => (evs, sOk && pOk)) from rfl]
        rw [h2]
        show (match pdaRun .psStart [] (elemToks (Enc.erec .kobj true p fs)) with
              | (evs, pOk) => (evs, true && pOk)) =
          (elemEvents (Enc.erec .kobj true p fs), true)
        rw [pda_doc (Enc.erec .kobj true p fs) b hwf hd]
        rfl

/-- C7: printing a well-formed materialized document (toplevel array or
object of integers with at most 79 decimal digits, plain strings, keys of
at most 79 characters and nested non-toplevel containers, uniformly
marked with the parse's isparam flag) whose nesting stays within the
tokenizer's configured depth bound and re-parsing the printed text with a
non-failing store succeeds and materializes exactly the original record
graph (same container shapes, element and key order, keys and literal
values), through the document out-parameter. -/
theorem C7_print_reparse_roundtrip (d : Enc) (b : Bool) (hwf : wfDoc b d = true)
    (hd : edepth d ≤ MAX_DEPTH - 1) :
    run_json_parserFn nofail (wg_print_json_document d) b =
      (0, ⟨[], b, some d, elemTicks .ARRAY d⟩) := by
  have ht := tokenize_print d b hwf hd
  have hr := runB_doc d b hwf 0 hd
  simp [run_json_parserFn, ht, hr]

theorem C7_print_reparse_roundtrip_witness :
    wfDoc false docC7w = true ∧ edepth docC7w ≤ MAX_DEPTH - 1 ∧
    run_json_parserFn nofail (wg_print_json_document docC7w) false =
      (0, ⟨[], false, some docC7w, elemTicks .ARRAY docC7w⟩) :=
  ⟨rfl, by decide, C7_print_reparse_roundtrip docC7w false rfl (by decide)⟩

/-- C7, original form, refuted: the round-trip does not hold for every
materialized document.  The document docC7 = ["a\"b"] is materialized by
the in-memory driver itself (from the text with an escaped quote), but
pretty_print_json writes the stored string unescaped (dbjson.c:563), so
re-parsing its printed text fails fatally and materializes no document at
all. -/
theorem C7_counterexample :
    (run_json_parserFn nofail inpC7 false).1 = 0 ∧
    (run_json_parserFn nofail inpC7 false).2.document = some docC7 ∧
    (run_json_parserFn nofail (wg_print_json_document docC7) false).1 = -2 ∧
    (run_json_parserFn nofail (wg_print_json_document docC7) false).2.document =
      none :=
  ⟨rfl, rfl, rfl, rfl⟩

end WhiteDB
